import Mathlib

/-!
# Verification of the zk-cryptography multilinear / sumcheck / GKR / KZG stack

Shallow embedding of the repository's core Rust code over a prime field,
modelled as `ZMod p`.  Machine group elements of the pairing groups
(G1, G2, GT of prime order `p`) are represented by their discrete-log
exponents in `ZMod p`; the pairing becomes multiplication of exponents.
Fallible Rust code (asserts, `unwrap`, index panics that are reachable from
the public API) is modelled with `Option`, `none` standing for a panic or a
propagated `Err`.

The Fiat-Shamir transcript (an incremental SHA-256 hasher) is modelled as the
list of bytes absorbed since the last reset, together with an abstract digest
function `hash : List ℕ → List ℕ` that stands for SHA-256; every theorem
about the protocols is proved for an arbitrary digest function.  A ghost
event trace (absorb / squeeze) is carried alongside for the statements about
absorb ordering.
-/

namespace ZK

/-- Big-endian byte string of `n`, padded to `w` bytes (mirrors arkworks'
fixed-width `into_bigint().to_bytes_be()`). -/
def natToBytesBE (w n : ℕ) : List ℕ :=
  match w with
  | 0 => []
  | w' + 1 => natToBytesBE w' (n / 256) ++ [n % 256]

/-- Interpret a big-endian byte string as a natural number
(mirrors `from_be_bytes_mod_order` before the modular reduction). -/
def bytesToNatBE (bs : List ℕ) : ℕ :=
  bs.foldl (fun acc b => acc * 256 + b) 0

/-- Fuel-driven floor-log2 (structural recursion, so that concrete instances
reduce inside kernel `decide`). -/
def log2fuel : ℕ → ℕ → ℕ
  | 0, _ => 0
  | fuel + 1, n => if n ≥ 2 then log2fuel fuel (n / 2) + 1 else 0

/-- Floor of the base-2 logarithm; models the source's
`(len as f64).log2() as usize` (and `Nat.log2`), which is `⌊log2 len⌋` on
the power-of-two lengths the code constructs. -/
def log2c (n : ℕ) : ℕ := log2fuel n n

/-- Byte width used for the canonical encoding of a field element of
`ZMod p` (number of bytes of the modulus). -/
def byteWidth (p : ℕ) : ℕ := log2c p / 8 + 1

/-- Canonical big-endian byte encoding of a field element
(`into_bigint().to_bytes_be()`). -/
def fieldToBytes {p : ℕ} (x : ZMod p) : List ℕ :=
  natToBytesBE (byteWidth p) x.val

/-- `vec_to_bytes` / `Multilinear::to_bytes`: concatenation of the canonical
encodings of a list of field elements. -/
def vecToBytes {p : ℕ} (l : List (ZMod p)) : List ℕ :=
  l.flatMap fieldToBytes

/-! ## Fiat-Shamir transcript (`fiat_shamir.rs`)

`FiatShamirTranscript` wraps an incremental SHA-256 hasher: `commit` feeds
bytes, `challenge` finalizes (digest of everything fed since the last reset),
resets, and re-feeds the digest.  The state is therefore determined by the
byte string absorbed since the last reset.  The digest function is abstract.
-/

/-- Ghost transcript event: data absorbed, or a challenge squeezed. -/
inductive TEvent
  | absorb (bytes : List ℕ)
  | squeeze
  deriving DecidableEq, Repr

/-- Transcript state: bytes fed since the last reset, plus the ghost trace of
events since creation. -/
structure TState where
  bytes : List ℕ
  trace : List TEvent
  deriving DecidableEq, Repr

/-- `FiatShamirTranscript::new`. -/
def TState.new : TState := ⟨[], []⟩

/-- `FiatShamirTranscript::commit`. -/
def TState.commit (s : TState) (data : List ℕ) : TState :=
  ⟨s.bytes ++ data, s.trace ++ [TEvent.absorb data]⟩

/-- `FiatShamirTranscript::challenge`: digest of the absorbed bytes; the
hasher is reset and re-fed with the digest. -/
def TState.challenge (hash : List ℕ → List ℕ) (s : TState) : List ℕ × TState :=
  (hash s.bytes, ⟨hash s.bytes, s.trace ++ [TEvent.squeeze]⟩)

/-- `evaluate_challenge_into_field`: `F::from_be_bytes_mod_order(challenge())`. -/
def TState.squeezeField (p : ℕ) (hash : List ℕ → List ℕ) (s : TState) :
    ZMod p × TState :=
  let r := s.challenge hash
  ((bytesToNatBE r.1 : ℕ), r.2)

/-- `evaluate_n_challenge_into_field`: `n` sequential squeezes. -/
def TState.squeezeNFields (p : ℕ) (hash : List ℕ → List ℕ) :
    ℕ → TState → List (ZMod p) × TState
  | 0, s => ([], s)
  | n + 1, s =>
    let r := s.squeezeField p hash
    let rest := TState.squeezeNFields p hash n r.2
    (r.1 :: rest.1, rest.2)

/-! ## Multilinear polynomials in evaluation form (`evaluation_form.rs`) -/

/-- `Multilinear<F>`: `n_vars` together with the `2^n_vars` evaluations on the
Boolean hypercube, most significant bit = variable 0. -/
structure Multilinear (p : ℕ) where
  n_vars : ℕ
  evaluations : List (ZMod p)
  deriving DecidableEq, Repr

/-- `pick_pairs_with_random_index` (`polynomial/src/utils.rs`): the index
pairs combined by `partial_evaluation`.  Mirrors the Rust loop, where
`result.len()` at the start of an outer round determines the offsets of that
round's pairs.  (The two `assert!`s at the top of the Rust function hold on
every call the claims range over.) -/
def pick_pairs_with_random_index (num_of_evaluations variable_index : ℕ) :
    List (ℕ × ℕ) :=
  (List.range (2 ^ variable_index)).foldl
    (fun result _ =>
      result ++ (List.range (num_of_evaluations / 2 ^ variable_index / 2)).map
        (fun y1 => (y1 + result.length * 2,
          num_of_evaluations / 2 ^ variable_index / 2 + y1 + result.length * 2)))
    []

/-- `Multilinear::partial_evaluation`: for each pair `(i, j)` emit
`r·evals[j] + (1-r)·evals[i]`; `n_vars` decreases by one.  (Rust indexing
panics out of range; the pairs are in range whenever
`variable_index < n_vars`, see `pick_pairs_mem_lt`.) -/
def Multilinear.partial_evaluation {p : ℕ} (m : Multilinear p)
    (eval_point : ZMod p) (variable_index : ℕ) : Multilinear p :=
  ⟨m.n_vars - 1,
    (pick_pairs_with_random_index m.evaluations.length variable_index).map
      (fun ij =>
        eval_point * m.evaluations.getD ij.2 0 +
          (1 - eval_point) * m.evaluations.getD ij.1 0)⟩

/-- `Multilinear::partial_evaluations`, applied left-to-right.  (The source
panics when the two argument lists have different lengths; every caller in
the repository passes lists of equal length, which the zip realises.) -/
def Multilinear.partial_evaluations {p : ℕ} (m : Multilinear p)
    (points : List (ZMod p)) (variable_indices : List ℕ) : Multilinear p :=
  (points.zip variable_indices).foldl
    (fun acc pv => acc.partial_evaluation pv.1 pv.2) m

/-- `Multilinear::evaluation`: asserts that the number of points equals
`n_vars` (panic modelled as `none`), then repeatedly partial-evaluates at
variable 0 and returns the remaining entry. -/
def Multilinear.evaluation {p : ℕ} (m : Multilinear p)
    (evaluation_points : List (ZMod p)) : Option (ZMod p) :=
  if evaluation_points.length = m.n_vars then
    some ((evaluation_points.foldl
      (fun acc r => acc.partial_evaluation r 0) m).evaluations.headD 0)
  else none

/-- `Multilinear::new`: `n_vars = log2(len)`; asserts the length is a power
of two. -/
def Multilinear.new {p : ℕ} (evaluations : List (ZMod p)) :
    Option (Multilinear p) :=
  if 2 ^ (log2c evaluations.length) = evaluations.length then
    some ⟨log2c evaluations.length, evaluations⟩
  else none

/-- `Multilinear::add_distinct`: outer-sum table, left operand varying
slower; rebuilt through `Self::new`, so `n_vars` is the log2 of the length. -/
def Multilinear.add_distinct {p : ℕ} (m rhs : Multilinear p) : Multilinear p :=
  let res := m.evaluations.flatMap (fun a => rhs.evaluations.map (fun b => a + b))
  ⟨log2c res.length, res⟩

/-- `Multilinear::mul_distinct`: outer-product table. -/
def Multilinear.mul_distinct {p : ℕ} (m rhs : Multilinear p) : Multilinear p :=
  let res := m.evaluations.flatMap (fun a => rhs.evaluations.map (fun b => a * b))
  ⟨log2c res.length, res⟩

/-- `Multilinear::to_bytes`. -/
def Multilinear.to_bytes {p : ℕ} (m : Multilinear p) : List ℕ :=
  vecToBytes m.evaluations

/-- `Multilinear::additive_identity`. -/
def Multilinear.additive_identity (p num_vars : ℕ) : Multilinear p :=
  ⟨num_vars, List.replicate (2 ^ num_vars) 0⟩

/-- `Multilinear::split_poly_into_two_and_sum_each_part`. -/
def Multilinear.split_poly_into_two_and_sum_each_part {p : ℕ}
    (m : Multilinear p) : Multilinear p :=
  ⟨1, [(m.evaluations.take (m.evaluations.length / 2)).sum,
       (m.evaluations.drop (m.evaluations.length / 2)).sum]⟩

/-- `Multilinear::sum_over_the_boolean_hypercube`. -/
def Multilinear.sum_over_the_boolean_hypercube {p : ℕ} (m : Multilinear p) :
    ZMod p :=
  m.evaluations.sum

/-- `Multilinear::add_to_front`: the loop runs `2^variable_length` times and
appends the table twice per iteration, so the table is replicated
`2^(variable_length+1)` times. -/
def Multilinear.add_to_front {p : ℕ} (m : Multilinear p)
    (variable_length : ℕ) : Multilinear p :=
  let res := (List.range (2 ^ variable_length)).foldl
    (fun acc _ => acc ++ m.evaluations ++ m.evaluations) []
  ⟨log2c res.length, res⟩

/-- `Multilinear::add_to_back`: each element repeated `2^variable_length`
times in place. -/
def Multilinear.add_to_back {p : ℕ} (m : Multilinear p)
    (variable_length : ℕ) : Multilinear p :=
  let res := m.evaluations.flatMap
    (fun x => List.replicate (2 ^ variable_length) x)
  ⟨log2c res.length, res⟩

/-- `Multilinear::duplicate_evaluation`: `v ∥ v`. -/
def Multilinear.duplicate_evaluation {p : ℕ} (value : List (ZMod p)) :
    Multilinear p :=
  ⟨log2c (value ++ value).length, value ++ value⟩

/-- Scalar multiple (`impl Mul<F> for Multilinear`). -/
def Multilinear.smul {p : ℕ} (m : Multilinear p) (rhs : ZMod p) :
    Multilinear p :=
  ⟨m.n_vars, m.evaluations.map (fun x => x * rhs)⟩

/-- Pointwise sum (`impl Add for Multilinear`; keeps the left `n_vars`). -/
def Multilinear.addPoly {p : ℕ} (m rhs : Multilinear p) : Multilinear p :=
  ⟨m.n_vars, List.zipWith (· + ·) m.evaluations rhs.evaluations⟩

/-- The pairing rule exactly as claim C5 words it: for each block of size
`2^(v+1)` of the evaluation table, in order, the lower half of the block
paired with the upper half in order. -/
def claimPairing (len v : ℕ) : List (ℕ × ℕ) :=
  (List.range (len / 2 ^ (v + 1))).flatMap (fun blk =>
    (List.range (2 ^ v)).map (fun y =>
      (blk * 2 ^ (v + 1) + y, blk * 2 ^ (v + 1) + 2 ^ v + y)))

/-- The pairing rule the code implements on a table of length `2^n`: for each
block of size `2^(n-v)`, in order, the lower half of the block paired with
the upper half in order (so a pair differs exactly in bit `v` counted from
the most significant side, i.e. in the bit of weight `2^(n-1-v)`). -/
def msbPairing (n v : ℕ) : List (ℕ × ℕ) :=
  (List.range (2 ^ v)).flatMap (fun blk =>
    (List.range (2 ^ (n - v - 1))).map (fun y =>
      (blk * 2 ^ (n - v) + y, blk * 2 ^ (n - v) + 2 ^ (n - v - 1) + y)))

/-! ## Sparse univariate polynomials (`univariate/univariate.rs`)

The source stores each monomial's power as a field element, converts it
through `BigInt` for exponentiation and compares canonical representatives
for ordering.  Every power the protocols construct is bounded by the number
of interpolation points, far below `p`, where that view coincides with plain
naturals, so the power is carried as `ℕ` here.
-/

/-- `UnivariateMonomial`: a coefficient together with a power. -/
structure UniMonomial (p : ℕ) where
  coeff : ZMod p
  pow : ℕ
  deriving DecidableEq, Repr

/-- `UnivariatePolynomial`: a list of monomials. -/
structure UnivariatePolynomial (p : ℕ) where
  monomial : List (UniMonomial p)
  deriving DecidableEq, Repr

/-- `UnivariatePolynomial::zero`. -/
def UnivariatePolynomial.zero (p : ℕ) : UnivariatePolynomial p := ⟨[]⟩

/-- `UnivariatePolynomial::evaluate`: `Σ coeff · point^pow`. -/
def UnivariatePolynomial.evaluate {p : ℕ} (q : UnivariatePolynomial p)
    (point : ZMod p) : ZMod p :=
  (q.monomial.map (fun m => m.coeff * point ^ m.pow)).sum

/-- `UnivariatePolynomial::to_bytes`: big-endian bytes of each coefficient
followed by those of its power (a field element in the source). -/
def UnivariatePolynomial.to_bytes {p : ℕ} (q : UnivariatePolynomial p) :
    List ℕ :=
  q.monomial.flatMap (fun m =>
    fieldToBytes m.coeff ++ fieldToBytes ((m.pow : ZMod p)))

/-- The merge loop of `impl Add for UnivariatePolynomial`. -/
def mergeMonomials {p : ℕ} :
    List (UniMonomial p) → List (UniMonomial p) → List (UniMonomial p)
  | [], r => r
  | l :: ls, [] => l :: ls
  | l :: ls, r :: rs =>
    if l.pow = r.pow then
      ⟨l.coeff + r.coeff, l.pow⟩ :: mergeMonomials ls rs
    else if l.pow < r.pow then
      l :: mergeMonomials ls (r :: rs)
    else
      r :: mergeMonomials (l :: ls) rs
termination_by l r => l.length + r.length

/-- `impl Add for UnivariatePolynomial`. -/
def UnivariatePolynomial.addUni {p : ℕ} (a b : UnivariatePolynomial p) :
    UnivariatePolynomial p :=
  ⟨mergeMonomials a.monomial b.monomial⟩

/-- The inner loop of `lagrange_basis`: multiply a dense coefficient list by
`(X - x_j)`; `new[k] = old[k-1] - x_j · old[k]`. -/
def listMulXsub {p : ℕ} (xj : ZMod p) (l : List (ZMod p)) : List (ZMod p) :=
  List.zipWith (fun prev cur => prev - xj * cur) (0 :: l) (l ++ [0])

/-- `lagrange_basis` (`polynomial/src/utils.rs`): coefficients of
`y`-unscaled Lagrange basis polynomial `i`, i.e.
`(Π_{j≠i} (X - x_j)) · (Π_{j≠i} (x_i - x_j))⁻¹`.  (The source unwraps the
inverse, panicking when two interpolation nodes coincide; `ZMod`'s inverse
of zero is zero, the difference is unreachable under the distinct-node
hypotheses of the theorems below.) -/
def lagrange_basis {p : ℕ} (points : List (ZMod p × ZMod p)) (i : ℕ) :
    List (ZMod p) :=
  let l_i := points.enum.foldl
    (fun acc jp => if i ≠ jp.1 then listMulXsub jp.2.1 acc else acc) [1]
  let xi := (points.getD i (0, 0)).1
  let denom := (points.enum.filter (fun jp => jp.1 ≠ i)).foldl
    (fun acc jp => acc * (xi - jp.2.1)) 1
  l_i.map (fun c => c * denom⁻¹)

/-- `UnivariatePolynomial::interpolation`: accumulate `y_i`-scaled basis
coefficients, then keep the nonzero ones as monomials with `pow = index`. -/
def UnivariatePolynomial.interpolation {p : ℕ}
    (points : List (ZMod p × ZMod p)) : UnivariatePolynomial p :=
  let result := points.enum.foldl
    (fun res ip =>
      List.zipWith (· + ·) res
        ((lagrange_basis points ip.1).map (fun c => c * ip.2.2)))
    (List.replicate points.length 0)
  ⟨(result.enum.filter (fun kc => kc.2 ≠ 0)).map
    (fun kc => ⟨kc.2, kc.1⟩)⟩

/-- `convert_round_poly_to_uni_poly_format` (`sumcheck/src/utils.rs`). -/
def convert_round_poly_to_uni_poly_format {p : ℕ}
    (round_poly : List (ZMod p)) : List (ZMod p × ZMod p) :=
  round_poly.enum.map (fun iv => ((iv.1 : ZMod p), iv.2))

/-- Horner evaluation of a dense coefficient list, `Σ l[k] · x^k`;
proof-side companion of `UnivariatePolynomial.evaluate`. -/
def evalCoeffs {p : ℕ} : List (ZMod p) → ZMod p → ZMod p
  | [], _ => 0
  | c :: cs, x => c + x * evalCoeffs cs x

/-! ## Basic sumcheck (`sumcheck/src/sumcheck.rs`) -/

/-- `Sumcheck<F>`: the prover/verifier object, holding a polynomial and the
claimed sum. -/
structure Sumcheck (p : ℕ) where
  poly : Multilinear p
  sum : ZMod p
  deriving DecidableEq, Repr

/-- `SumcheckProof<F>`. -/
structure SumcheckProof (p : ℕ) where
  poly : Multilinear p
  sum : ZMod p
  univariate_poly : List (Multilinear p)
  deriving DecidableEq, Repr

/-- `Sumcheck::new` followed by `Sumcheck::poly_sum`: the sum is set to the
sum of the polynomial's evaluations. -/
def Sumcheck.poly_sum {p : ℕ} (s : Sumcheck p) : Sumcheck p :=
  ⟨s.poly, s.poly.evaluations.sum⟩

/-- The round loop of `Sumcheck::prove`: per round, the length-2 polynomial
`[first-half sum, second-half sum]` is absorbed, a challenge squeezed, and
the polynomial partially evaluated at it. -/
def proveRoundsBasic {p : ℕ} (hash : List ℕ → List ℕ) :
    ℕ → Multilinear p → TState →
      List (Multilinear p) × List (ZMod p) × TState
  | 0, _, ts => ([], [], ts)
  | n + 1, cur, ts =>
    let u := cur.split_poly_into_two_and_sum_each_part
    let ts1 := ts.commit u.to_bytes
    let r := ts1.squeezeField p hash
    let rest := proveRoundsBasic hash n (cur.partial_evaluation r.1 0) r.2
    (u :: rest.1, r.1 :: rest.2.1, rest.2.2)

/-- `Sumcheck::prove`. -/
def Sumcheck.prove {p : ℕ} (hash : List ℕ → List ℕ) (s : Sumcheck p) :
    SumcheckProof p × List (ZMod p) :=
  let ts := TState.new.commit (fieldToBytes s.sum)
  let r := proveRoundsBasic hash s.poly.n_vars s.poly ts
  (⟨s.poly, s.sum, r.1⟩, r.2.1)

/-- The round loop of `Sumcheck::verify`.  `none` models a panic (round
polynomial missing, or whose `n_vars` fails the `evaluation` assert); the
`Bool` is `false` when a `g(0) + g(1) = claim` check failed (early
`return false` in the source). -/
def verifyRoundsBasic {p : ℕ} (hash : List ℕ → List ℕ) :
    ℕ → List (Multilinear p) → ZMod p → TState →
      Option (Bool × ZMod p × List (ZMod p) × TState)
  | 0, _, claimed, ts => some (true, claimed, [], ts)
  | _ + 1, [], _, _ => none
  | n + 1, u :: rest, claimed, ts => do
    let e0 ← u.evaluation [0]
    let e1 ← u.evaluation [1]
    if e0 + e1 ≠ claimed then
      some (false, claimed, [], ts)
    else do
      let ts1 := ts.commit u.to_bytes
      let c := ts1.squeezeField p hash
      let ec ← u.evaluation [c.1]
      match verifyRoundsBasic hash n rest ec c.2 with
      | none => none
      | some out => some (out.1, out.2.1, c.1 :: out.2.2.1, out.2.2.2)

/-- `Sumcheck::verify`: round checks driven by the proof's own polynomial
and sum, then the final oracle query against the proof's polynomial. -/
def Sumcheck.verify {p : ℕ} (hash : List ℕ → List ℕ) (_s : Sumcheck p)
    (proof : SumcheckProof p) : Option Bool :=
  let ts := TState.new.commit (fieldToBytes proof.sum)
  match verifyRoundsBasic hash proof.poly.n_vars proof.univariate_poly
      proof.sum ts with
  | none => none
  | some (false, _, _, _) => some false
  | some (true, claimed, chals, _) =>
    match proof.poly.evaluation chals with
    | none => none
    | some v => some (decide (v = claimed))

/-! ## Evaluation-table theory

`pe0` is what `partial_evaluation` does at `variable_index = 0`: combine the
lower and upper halves of the table.  All protocol code partially evaluates
at variable 0, so the theory is developed for `pe0`.
-/

/-- Collapse of variable 0: combine the lower half `a` and the upper half `b`
of the table into `t·b + (1-t)·a`. -/
def pe0 {p : ℕ} (t : ZMod p) (l : List (ZMod p)) : List (ZMod p) :=
  List.zipWith (fun a b => t * b + (1 - t) * a)
    (l.take (l.length / 2)) (l.drop (l.length / 2))

/-- Full evaluation as a pure list function: fold `pe0` over the points and
take the remaining entry. -/
def evalList {p : ℕ} (l : List (ZMod p)) (points : List (ZMod p)) : ZMod p :=
  (points.foldl (fun acc r => pe0 r acc) l).headD 0

/-- Pointwise linear combination of two tables. -/
def lin2 {p : ℕ} (a b : ZMod p) (A B : List (ZMod p)) : List (ZMod p) :=
  List.zipWith (fun x y => a * x + b * y) A B

/-- Closed form of the `pick_pairs_with_random_index` loop: for each block of
size `n / 2^v` of the table, in order, the lower half of the block paired
with the upper half in order. -/
def pickPairsBlocks (n v : ℕ) : List (ℕ × ℕ) :=
  (List.range (2 ^ v)).flatMap (fun t =>
    (List.range (n / 2 ^ v / 2)).map (fun y =>
      (t * (n / 2 ^ v / 2) * 2 + y,
       t * (n / 2 ^ v / 2) * 2 + n / 2 ^ v / 2 + y)))

/-! ## Composed multilinears (`composed/composed_multilinear.rs`)

The sumcheck/GKR crates use this type both as `ComposedMultilinear` and
under the behaviourally identical `ComposedMLE` name.
-/

/-- `ComposedMultilinear<F>`: a product of multilinear factors. -/
structure ComposedMultilinear (p : ℕ) where
  polys : List (Multilinear p)
  deriving DecidableEq, Repr

/-- `ComposedMultilinear::new`: reads `polys[0].n_vars` (panic on an empty
vector) and asserts all factors agree on `n_vars`. -/
def ComposedMultilinear.new {p : ℕ} (polys : List (Multilinear p)) :
    Option (ComposedMultilinear p) :=
  match polys with
  | [] => none
  | q :: rest =>
    if (q :: rest).all (fun m => m.n_vars = q.n_vars) then some ⟨q :: rest⟩
    else none

/-- `ComposedMultilinear::n_vars`: the first factor's variable count (the
source panics on an empty factor list, unreachable for values built by
`new`; the default head stands for that access). -/
def ComposedMultilinear.n_vars {p : ℕ} (c : ComposedMultilinear p) : ℕ :=
  (c.polys.headD ⟨0, []⟩).n_vars

/-- `ComposedMultilinear::max_degree`: the number of factors. -/
def ComposedMultilinear.max_degree {p : ℕ} (c : ComposedMultilinear p) : ℕ :=
  c.polys.length

/-- `ComposedMultilinear::element_wise_product`: pointwise product of the
factor tables, over the first factor's index range. -/
def ComposedMultilinear.element_wise_product {p : ℕ}
    (c : ComposedMultilinear p) : List (ZMod p) :=
  (List.range (c.polys.headD ⟨0, []⟩).evaluations.length).map
    (fun i => (c.polys.map (fun v => v.evaluations.getD i 0)).prod)

/-- `ComposedMultilinear::partial_evaluation`: map over the factors. -/
def ComposedMultilinear.partial_evaluation {p : ℕ}
    (c : ComposedMultilinear p) (eval_point : ZMod p)
    (variable_index : ℕ) : ComposedMultilinear p :=
  ⟨c.polys.map (fun q => q.partial_evaluation eval_point variable_index)⟩

/-- `ComposedMultilinear::evaluation`: the product of the factors'
evaluations (each factor's `evaluation` assert may panic). -/
def ComposedMultilinear.evaluationC {p : ℕ} (c : ComposedMultilinear p)
    (points : List (ZMod p)) : Option (ZMod p) :=
  c.polys.foldl
    (fun acc q => acc.bind (fun r => (q.evaluation points).map (fun e => r * e)))
    (some 1)

/-- `ComposedMultilinear::to_bytes`. -/
def ComposedMultilinear.to_bytes {p : ℕ} (c : ComposedMultilinear p) :
    List ℕ :=
  c.polys.flatMap Multilinear.to_bytes

/-- `composed_mle_to_bytes` (`multi_composed_sumcheck.rs`). -/
def composed_mle_to_bytes {p : ℕ} (polys : List (ComposedMultilinear p)) :
    List ℕ :=
  polys.flatMap ComposedMultilinear.to_bytes

/-- `ComposedSumcheck::calculate_poly_sum`: hypercube sum of the element-wise
product. -/
def ComposedSumcheck.calculate_poly_sum {p : ℕ} (c : ComposedMultilinear p) :
    ZMod p :=
  c.element_wise_product.sum

/-- `MultiComposedSumcheckProver::calculate_poly_sum`. -/
def MultiComposedSumcheckProver.calculate_poly_sum {p : ℕ}
    (polys : List (ComposedMultilinear p)) : ZMod p :=
  (polys.map ComposedSumcheck.calculate_poly_sum).sum

/-! ## Multi-composed sumcheck (`composed/multi_composed_sumcheck.rs`) -/

/-- `ComposedSumcheckProof<F>`. -/
structure ComposedSumcheckProof (p : ℕ) where
  round_polys : List (UnivariatePolynomial p)
  sum : ZMod p
  deriving DecidableEq, Repr

/-- `ComposedSumcheckProof::to_bytes`: concatenated round-polynomial bytes
(the sum is not serialized). -/
def ComposedSumcheckProof.to_bytes {p : ℕ} (pf : ComposedSumcheckProof p) :
    List ℕ :=
  pf.round_polys.flatMap UnivariatePolynomial.to_bytes

/-- `SubClaim<F>`. -/
structure SubClaim (p : ℕ) where
  sum : ZMod p
  challenges : List (ZMod p)
  deriving DecidableEq, Repr

/-- One composed polynomial's round samples:
`[Σ at X=0, Σ at X=1, …, Σ at X=max_degree]`. -/
def roundPolySamples {p : ℕ} (c : ComposedMultilinear p) : List (ZMod p) :=
  (List.range (c.max_degree + 1)).map
    (fun i : ℕ =>
      ((c.partial_evaluation ((i : ZMod p)) 0).element_wise_product).sum)

/-- One composed polynomial's interpolated round polynomial. -/
def roundPolyOf {p : ℕ} (c : ComposedMultilinear p) :
    UnivariatePolynomial p :=
  UnivariatePolynomial.interpolation
    (convert_round_poly_to_uni_poly_format (roundPolySamples c))

/-- The summed round polynomial of `prove_internal`'s inner loop:
`round_poly = zero; for p in current { round_poly = round_poly + interp }`. -/
def roundPolyTotal {p : ℕ} (polys : List (ComposedMultilinear p)) :
    UnivariatePolynomial p :=
  polys.foldl (fun acc c => acc.addUni (roundPolyOf c))
    (UnivariatePolynomial.zero p)

/-- The round loop of `MultiComposedSumcheckProver::prove_internal`. -/
def proveRoundsComposed {p : ℕ} (hash : List ℕ → List ℕ) :
    ℕ → List (ComposedMultilinear p) → TState →
      List (UnivariatePolynomial p) × List (ZMod p) × TState
  | 0, _, ts => ([], [], ts)
  | n + 1, cur, ts =>
    let g := roundPolyTotal cur
    let ts1 := ts.commit g.to_bytes
    let r := ts1.squeezeField p hash
    let rest := proveRoundsComposed hash n
      (cur.map (fun c => c.partial_evaluation r.1 0)) r.2
    (g :: rest.1, r.1 :: rest.2.1, rest.2.2)

/-- `MultiComposedSumcheckProver::prove_internal`: absorb the claimed sum,
then run `poly[0].n_vars()` rounds (the indexing panics on an empty vector;
the default head stands for it).  The source's `Result` is always `Ok`. -/
def MultiComposedSumcheckProver.prove_internal {p : ℕ}
    (hash : List ℕ → List ℕ) (poly : List (ComposedMultilinear p))
    (sum : ZMod p) (transcript : TState) :
    (ComposedSumcheckProof p × List (ZMod p)) × TState :=
  let ts0 := transcript.commit (fieldToBytes sum)
  let r := proveRoundsComposed hash (poly.headD ⟨[]⟩).n_vars poly ts0
  ((⟨r.1, sum⟩, r.2.1), r.2.2)

/-- `MultiComposedSumcheckProver::prove`: absorbs the composed identities,
then proves. -/
def MultiComposedSumcheckProver.prove {p : ℕ} (hash : List ℕ → List ℕ)
    (poly : List (ComposedMultilinear p)) (sum : ZMod p) :
    ComposedSumcheckProof p × List (ZMod p) :=
  (MultiComposedSumcheckProver.prove_internal hash poly sum
    (TState.new.commit (composed_mle_to_bytes poly))).1

/-- `MultiComposedSumcheckProver::prove_partial`: a fresh transcript with no
pre-absorbed identities. -/
def MultiComposedSumcheckProver.prove_partial {p : ℕ}
    (hash : List ℕ → List ℕ) (poly : List (ComposedMultilinear p))
    (sum : ZMod p) : (ComposedSumcheckProof p × List (ZMod p)) × TState :=
  MultiComposedSumcheckProver.prove_internal hash poly sum TState.new

/-- The round loop of `MultiComposedSumcheckVerifier::verify_internal`:
absorb the round polynomial, squeeze its challenge, check
`g(0) + g(1) = claim` (`Err`, modelled `none`, on failure), update the
claim to `g(challenge)`. -/
def verifyInternalRounds {p : ℕ} (hash : List ℕ → List ℕ) :
    List (UnivariatePolynomial p) → ZMod p → TState →
      Option (ZMod p × List (ZMod p) × TState)
  | [], claimed, ts => some (claimed, [], ts)
  | g :: gs, claimed, ts =>
    let ts1 := ts.commit g.to_bytes
    let c := ts1.squeezeField p hash
    if claimed = g.evaluate 0 + g.evaluate 1 then
      (verifyInternalRounds hash gs (g.evaluate c.1) c.2).map
        (fun out => (out.1, c.1 :: out.2.1, out.2.2))
    else none

/-- `MultiComposedSumcheckVerifier::verify_internal`. -/
def MultiComposedSumcheckVerifier.verify_internal {p : ℕ}
    (hash : List ℕ → List ℕ) (proof : ComposedSumcheckProof p)
    (transcript : TState) : Option (SubClaim p × TState) :=
  let ts0 := transcript.commit (fieldToBytes proof.sum)
  (verifyInternalRounds hash proof.round_polys proof.sum ts0).map
    (fun out => (⟨out.1, out.2.1⟩, out.2.2))

/-- `MultiComposedSumcheckVerifier::verify_partial`: `verify_internal` on a
fresh transcript. -/
def MultiComposedSumcheckVerifier.verify_partial {p : ℕ}
    (hash : List ℕ → List ℕ) (proof : ComposedSumcheckProof p) :
    Option (SubClaim p × TState) :=
  MultiComposedSumcheckVerifier.verify_internal hash proof TState.new

/-- `MultiComposedSumcheckVerifier::verify`: absorb the composed identities,
run `verify_internal` (`Err` propagates), then the oracle check
`Σ_k C_k(challenges) = final claim`. -/
def MultiComposedSumcheckVerifier.verify {p : ℕ} (hash : List ℕ → List ℕ)
    (poly : List (ComposedMultilinear p)) (proof : ComposedSumcheckProof p) :
    Option Bool :=
  match MultiComposedSumcheckVerifier.verify_internal hash proof
      (TState.new.commit (composed_mle_to_bytes poly)) with
  | none => none
  | some (sub, _) =>
    match poly.foldl
        (fun acc c => acc.bind
          (fun s => (c.evaluationC sub.challenges).map (fun e => s + e)))
        (some 0) with
    | none => none
    | some s => some (decide (s = sub.sum))

/-- Proof-side full evaluation of a composed multilinear: the product of the
factors' table evaluations. -/
def evalComposedList {p : ℕ} (c : ComposedMultilinear p)
    (rs : List (ZMod p)) : ZMod p :=
  (c.polys.map (fun f => evalList f.evaluations rs)).prod

/-- Well-formedness of a composed multilinear at `nv` variables: nonempty,
every factor declaring `nv` variables with a table of length `2^nv`. -/
def CMwf {p : ℕ} (c : ComposedMultilinear p) (nv : ℕ) : Prop :=
  c.polys ≠ [] ∧ ∀ f ∈ c.polys, f.n_vars = nv ∧ f.evaluations.length = 2 ^ nv

/-! ## Multilinear KZG (`multilinear-kzg`)

Pairing-group elements are represented by their discrete-log exponents in
`ZMod p` (the scalar field of a pairing whose groups have prime order `p`):
`mul_bigint` becomes field multiplication, group addition becomes field
addition, the generators are `1`, and `e(a·g1, b·g2)` becomes the exponent
`a * b` of GT.  The file `multilinear-kzg/src/utils.rs` is not in the source
tree; its four helpers (`get_poly_quotient`, `get_poly_remainder`,
`sum_pairing_results`, `generate_array_of_points`) are modelled from the
spec.
-/

/-- `boolean_hypercube` (`polynomial/src/utils.rs`): the `2^n` vertices in
index order, each listing its bits most significant first. -/
def boolean_hypercube (p n : ℕ) : List (List (ZMod p)) :=
  (List.range (2 ^ n)).map (fun i =>
    (List.range n).reverse.map
      (fun j => if i / 2 ^ j % 2 = 1 then (1 : ZMod p) else 0))

/-- Modelled from the spec: `generate_array_of_points`
(`multilinear-kzg/src/utils.rs`, missing from the tree) computes the
Boolean-hypercube Lagrange values
`L_k(τ) = Π_{bit_i(k)=1} τ_i · Π_{bit_i(k)=0} (1−τ_i)`, one value per
hypercube vertex, in vertex order. -/
def generate_array_of_points {p : ℕ} (bh_cube : List (List (ZMod p)))
    (eval_points : List (ZMod p)) : List (ZMod p) :=
  bh_cube.map (fun vertex =>
    ((vertex.zip eval_points).map
      (fun bt => if bt.1 = 1 then bt.2 else 1 - bt.2)).prod)

/-- `TrustedSetup::generate_powers_of_tau_in_g1`: `g1 · L_k(τ)` for each
hypercube vertex `k`; in exponent representation just `L_k(τ)`. -/
def generate_powers_of_tau_in_g1 {p : ℕ} (eval_points : List (ZMod p)) :
    List (ZMod p) :=
  generate_array_of_points (boolean_hypercube p eval_points.length)
    eval_points

/-- `TrustedSetup::generate_powers_of_tau_in_g2`: `g2 · τ_j`; in exponent
representation the secret point itself. -/
def generate_powers_of_tau_in_g2 {p : ℕ} (eval_points : List (ZMod p)) :
    List (ZMod p) :=
  eval_points

/-- `TrustedSetup<P>` (`multilinear-kzg/src/trusted_setup.rs`). -/
structure TrustedSetup (p : ℕ) where
  powers_of_tau_in_g1 : List (ZMod p)
  powers_of_tau_in_g2 : List (ZMod p)
  deriving DecidableEq, Repr

/-- `TrustedSetup::setup`. -/
def TrustedSetup.setup {p : ℕ} (eval_points : List (ZMod p)) :
    TrustedSetup p :=
  ⟨generate_powers_of_tau_in_g1 eval_points,
   generate_powers_of_tau_in_g2 eval_points⟩

/-- `MultilinearKZGProof<P>`. -/
structure MultilinearKZGProof (p : ℕ) where
  evaluation : ZMod p
  proofs : List (ZMod p)
  deriving DecidableEq, Repr

/-- `MultilinearKZGProof::default`. -/
def MultilinearKZGProof.default (p : ℕ) : MultilinearKZGProof p := ⟨0, []⟩

/-- `MultilinearKZG::commitment`: `Σ_k evals[k] · tau_g1[k]` in the
exponent; the length assert is modelled as `none`. -/
def MultilinearKZG.commitment {p : ℕ} (poly : Multilinear p)
    (powers_of_tau_in_g1 : List (ZMod p)) : Option (ZMod p) :=
  if powers_of_tau_in_g1.length = poly.evaluations.length then
    some ((List.zipWith (fun c t => t * c) poly.evaluations
      powers_of_tau_in_g1).sum)
  else none

/-- Modelled from the spec: `get_poly_quotient` (missing `utils.rs`) is the
finite difference `M(1, ·) − M(0, ·)` in variable 0, one variable fewer. -/
def get_poly_quotient {p : ℕ} (poly : Multilinear p) : Multilinear p :=
  ⟨poly.n_vars - 1,
    List.zipWith (· - ·)
      (poly.partial_evaluation 1 0).evaluations
      (poly.partial_evaluation 0 0).evaluations⟩

/-- Modelled from the spec: `get_poly_remainder` (missing `utils.rs`) is the
partial evaluation of variable 0 at the round point. -/
def get_poly_remainder {p : ℕ} (poly : Multilinear p) (r : ZMod p) :
    Multilinear p :=
  poly.partial_evaluation r 0

/-- The round loop of `MultilinearKZG::open`: per variable, commit the
front-lifted quotient and pass the remainder on; the last round duplicates
the scalar quotient and lifts it by `variable_index - 1`, which in Rust
underflows `usize` when the loop starts at index 0 (one variable in total),
modelled `none`.  Returns the round proofs and the final-round remainder. -/
def openRounds {p : ℕ} (tau1 : List (ZMod p)) :
    ℕ → Multilinear p → List (ZMod p) → Option (List (ZMod p) × ZMod p)
  | _, _, [] => some ([], 0)
  | i, poly, [point] => do
    let quotient := get_poly_quotient poly
    let fr ← poly.evaluation [point]
    if i = 0 then none
    else do
      let blown := (Multilinear.duplicate_evaluation
        quotient.evaluations).add_to_front (i - 1)
      let pf ← MultilinearKZG.commitment blown tau1
      some ([pf], fr)
  | i, poly, point :: rest => do
    let quotient := get_poly_quotient poly
    let remainder := get_poly_remainder poly point
    let blown := quotient.add_to_front i
    let pf ← MultilinearKZG.commitment blown tau1
    let r ← openRounds tau1 (i + 1) remainder rest
    some (pf :: r.1, r.2)

/-- `MultilinearKZG::open`: evaluate, run the rounds, and panic (modelled
`none`) when the evaluation and the final-round remainder disagree. -/
def MultilinearKZG.open {p : ℕ} (poly : Multilinear p)
    (evaluation_points : List (ZMod p)) (tau1 : List (ZMod p)) :
    Option (MultilinearKZGProof p) := do
  let evaluation ← poly.evaluation evaluation_points
  let r ← openRounds tau1 0 poly evaluation_points
  if evaluation = r.2 then some ⟨evaluation, r.1⟩ else none

/-- Modelled from the spec: `sum_pairing_results` (missing `utils.rs`) is
`Π_i e(π_i, tau_g2[i] − r_i·g2)`; in exponent representation
`Σ_i π_i · (tau_g2[i] − r_i)`. -/
def sum_pairing_results {p : ℕ} (tau2 r_g2 proofs : List (ZMod p)) :
    ZMod p :=
  (List.zipWith (fun td pf => pf * td)
    (List.zipWith (· - ·) tau2 r_g2) proofs).sum

/-- `MultilinearKZG::verify`:
`e(C − v·g1, g2) = Π_i e(π_i, tau_g2[i] − r_i·g2)`; in exponents
`C − v = Σ_i π_i (τ_i − r_i)`. -/
def MultilinearKZG.verify {p : ℕ} (commit : ZMod p)
    (verifier_points : List (ZMod p)) (proof : MultilinearKZGProof p)
    (tau2 : List (ZMod p)) : Bool :=
  decide (commit - proof.evaluation
    = sum_pairing_results tau2 (generate_powers_of_tau_in_g2 verifier_points)
        proof.proofs)

/-! ## GKR circuits (`gkr/src/gate.rs`, `gkr/src/circuit.rs`)

The `circuit` crate's `Circuit`/`CircuitLayer`/`Gate` (used by the succinct
protocol) are behaviourally identical to the `gkr` crate's
`GKRCircuit`/`GKRCircuitLayer`/`Gate`, so one embedding serves both.
-/

/-- `GateType`. -/
inductive GateType
  | add
  | mul
  deriving DecidableEq, Repr

/-- `Gate`: a type and the two input labels (`inputs: [usize; 2]`). -/
structure Gate where
  gate_type : GateType
  input0 : ℕ
  input1 : ℕ
  deriving DecidableEq, Repr

/-- `GKRCircuitLayer` / `CircuitLayer`. -/
structure GKRCircuitLayer where
  layer : List Gate
  deriving DecidableEq, Repr

/-- `GKRCircuit` / `Circuit`. -/
structure GKRCircuit where
  layers : List GKRCircuitLayer
  deriving DecidableEq, Repr

/-- One gate against the previous layer's values (Rust indexing panics out
of range, modelled `none`). -/
def evalGate {p : ℕ} (cur : List (ZMod p)) (g : Gate) : Option (ZMod p) :=
  if g.input0 < cur.length ∧ g.input1 < cur.length then
    some (match g.gate_type with
      | GateType.add => cur.getD g.input0 0 + cur.getD g.input1 0
      | GateType.mul => cur.getD g.input0 0 * cur.getD g.input1 0)
  else none

/-- One layer of gates, in order. -/
def evalLayer {p : ℕ} (cur : List (ZMod p)) : List Gate →
    Option (List (ZMod p))
  | [] => some []
  | g :: rest =>
    (evalGate cur g).bind (fun v =>
      (evalLayer cur rest).map (fun vs => v :: vs))

/-- `GKRCircuit::evaluation` / `Circuit::evaluation`: evaluate the layers
bottom-up from the input; the result lists the output layer first and the
input last. -/
def GKRCircuit.evaluation {p : ℕ} (c : GKRCircuit) (input : List (ZMod p)) :
    Option (List (List (ZMod p))) :=
  c.layers.reverse.foldl
    (fun acc layer => acc.bind (fun ls =>
      (evalLayer (ls.headD []) layer.layer).map (fun t => t :: ls)))
    (some [input])

/-- Fuel-driven binary digits of `n`, most significant first (the digits of
`format!("{:b}", n)` for `n > 0`; empty at fuel exhaustion or zero). -/
def natBitsAux : ℕ → ℕ → List ℕ
  | 0, _ => []
  | fuel + 1, n => if n = 0 then [] else natBitsAux fuel (n / 2) ++ [n % 2]

/-- `binary_string` (`gkr/src/utils.rs`): binary digits of `index`,
left-padded with zeros to `bit_count` (`bit_count = 0` is bumped to 1). -/
def binary_string (index bit_count : ℕ) : List ℕ :=
  let bc := if bit_count = 0 then 1 else bit_count
  let binary := if index = 0 then [0] else natBitsAux index index
  List.replicate (bc - binary.length) 0 ++ binary

/-- `usize::from_str_radix(_, 2)` on a digit string produced by
`binary_string` concatenation. -/
def bitsToNat (bits : List ℕ) : ℕ :=
  bits.foldl (fun acc b => 2 * acc + b) 0

/-- `transform_label_to_binary_and_to_decimal`: gate label on `layer_index`
bits, the two input labels on `layer_index + 1` bits each. -/
def transform_label_to_binary_and_to_decimal (layer_index a b c : ℕ) : ℕ :=
  bitsToNat (binary_string a layer_index
    ++ binary_string b (layer_index + 1)
    ++ binary_string c (layer_index + 1))

/-- `size_of_mle_n_var_at_each_layer`: the wiring-MLE table size the code
hardcodes per layer (8 for layer 0, `2^(3i+2)` for layer `i ≥ 1`). -/
def size_of_mle_n_var_at_each_layer (layer_index : ℕ) : ℕ :=
  if layer_index = 0 then 8
  else 2 ^ (layer_index + 2 * (layer_index + 1))

/-- Array write; the Rust index panic is modelled as `none`. -/
def setAt {p : ℕ} (l : List (ZMod p)) (i : ℕ) (v : ZMod p) :
    Option (List (ZMod p)) :=
  if i < l.length then some (l.set i v) else none

/-- `GKRCircuit::add_mult_mle` / `Circuit::add_mult_mle`: one-hot wiring
tables of the hardcoded per-layer size, then `Multilinear::new`. -/
def GKRCircuit.add_mult_mle (p : ℕ) (c : GKRCircuit) (layer_index : ℕ) :
    Option (Multilinear p × Multilinear p) :=
  if layer_index < c.layers.length then
    let layer := c.layers.getD layer_index ⟨[]⟩
    let n := size_of_mle_n_var_at_each_layer layer_index
    ((layer.layer.enum.foldl
        (fun acc ig => acc.bind (fun av =>
          let d := transform_label_to_binary_and_to_decimal layer_index
            ig.1 ig.2.input0 ig.2.input1
          match ig.2.gate_type with
          | GateType.add => (setAt av.1 d 1).map (fun a2 => (a2, av.2))
          | GateType.mul => (setAt av.2 d 1).map (fun m2 => (av.1, m2))))
        (some (List.replicate n 0, List.replicate n 0))).bind
      (fun av => (Multilinear.new av.1).bind (fun am =>
        (Multilinear.new av.2).map (fun mm => (am, mm)))))
  else none

/-! ## Classical GKR (`gkr/src/protocol.rs`, `gkr/src/utils.rs`) -/

/-- `w_mle`: `Multilinear::new` on a layer's values. -/
def w_mle {p : ℕ} (layer_eval : List (ZMod p)) : Option (Multilinear p) :=
  Multilinear.new layer_eval

/-- `GKRProof<F>`. -/
structure GKRProof (p : ℕ) where
  sumcheck_proofs : List (ComposedSumcheckProof p)
  wb_s : List (ZMod p)
  wc_s : List (ZMod p)
  w_0_mle : Multilinear p
  deriving DecidableEq, Repr

/-- `generate_layer_one_prove_sumcheck` (`gkr/src/utils.rs`; the
`succint-gkr` copy is identical).  The mutated outputs — the pushed
sumcheck proof, the two pushed `W` evaluations and the transcript — are
returned alongside `(claimed_sum, alpha, beta, rb, rc)`; `none` models the
`ComposedMLE::new` assert and the `evaluation` asserts. -/
def generate_layer_one_prove_sumcheck {p : ℕ} (hash : List ℕ → List ℕ)
    (add_mle mult_mle w_1_mle : Multilinear p) (n_r : List (ZMod p))
    (sum : ZMod p) (transcript : TState) :
    Option ((ZMod p × ZMod p × ZMod p × List (ZMod p) × List (ZMod p))
      × ComposedSumcheckProof p × ZMod p × ZMod p × TState) := do
  let add_rbc := add_mle.partial_evaluations n_r
    (List.replicate n_r.length 0)
  let mul_rbc := mult_mle.partial_evaluations n_r
    (List.replicate n_r.length 0)
  let wb := w_1_mle
  let wc := w_1_mle
  let wb_add_wc := wb.add_distinct wc
  let wb_mul_wc := wb.mul_distinct wc
  let add_fbc ← ComposedMultilinear.new [add_rbc, wb_add_wc]
  let mul_fbc ← ComposedMultilinear.new [mul_rbc, wb_mul_wc]
  let pr := MultiComposedSumcheckProver.prove_partial hash
    [add_fbc, mul_fbc] sum
  let ts1 := transcript.commit pr.1.1.to_bytes
  let b := pr.1.2.take (pr.1.2.length / 2)
  let c := pr.1.2.drop (pr.1.2.length / 2)
  let eval_wb ← wb.evaluation b
  let eval_wc ← wc.evaluation c
  let a1 := ts1.squeezeField p hash
  let b1 := a1.2.squeezeField p hash
  some ((a1.1 * eval_wb + b1.1 * eval_wc, a1.1, b1.1, b, c),
    pr.1.1, eval_wb, eval_wc, b1.2)

/-- The `GKRProtocol::prove` layer loop (`layer_index` running from 2).
Carried state `(claimed_sum, alpha, beta, r_b, r_c, transcript)`; emits the
per-layer sumcheck proofs and `W` evaluations in order and the final
transcript. -/
def gkrProveLayers {p : ℕ} (hash : List ℕ → List ℕ) (circuit : GKRCircuit)
    (eval_layers : List (List (ZMod p))) :
    List ℕ → ZMod p → ZMod p → ZMod p → List (ZMod p) → List (ZMod p) →
      TState →
      Option (List (ComposedSumcheckProof p) × List (ZMod p) ×
        List (ZMod p) × TState)
  | [], _, _, _, _, _, ts => some ([], [], [], ts)
  | layer_index :: restIdx, claimed_sum, alpha, beta, r_b, r_c, ts => do
    let am ← circuit.add_mult_mle p (layer_index - 1)
    let add_rb_bc := am.1.partial_evaluations r_b
      (List.replicate r_b.length 0)
    let mul_rb_bc := am.2.partial_evaluations r_b
      (List.replicate r_b.length 0)
    let add_rc_bc := am.1.partial_evaluations r_c
      (List.replicate r_b.length 0)
    let mul_rc_bc := am.2.partial_evaluations r_c
      (List.replicate r_b.length 0)
    let w_i_mle ← w_mle (eval_layers.getD layer_index [])
    let wb := w_i_mle
    let wc := w_i_mle
    let wb_add_wc := wb.add_distinct wc
    let wb_mul_wc := wb.mul_distinct wc
    let add_alpha_beta := (add_rb_bc.smul alpha).addPoly
      (add_rc_bc.smul beta)
    let mul_alpha_beta := (mul_rb_bc.smul alpha).addPoly
      (mul_rc_bc.smul beta)
    let fbc_add ← ComposedMultilinear.new [add_alpha_beta, wb_add_wc]
    let fbc_mul ← ComposedMultilinear.new [mul_alpha_beta, wb_mul_wc]
    let pr := MultiComposedSumcheckProver.prove_partial hash
      [fbc_add, fbc_mul] claimed_sum
    let ts1 := ts.commit pr.1.1.to_bytes
    let b := pr.1.2.take (pr.1.2.length / 2)
    let c := pr.1.2.drop (pr.1.2.length / 2)
    let eval_wb ← wb.evaluation b
    let eval_wc ← wc.evaluation c
    let a1 := ts1.squeezeField p hash
    let b1 := a1.2.squeezeField p hash
    let rr ← gkrProveLayers hash circuit eval_layers restIdx
      (a1.1 * eval_wb + b1.1 * eval_wc) a1.1 b1.1 b c b1.2
    some (pr.1.1 :: rr.1, eval_wb :: rr.2.1, eval_wc :: rr.2.2.1,
      rr.2.2.2)

/-- `GKRProtocol::prove`.  The final transcript state is returned alongside
the proof (the source drops it); `none` models the panics reachable through
`Multilinear::new`, `ComposedMultilinear::new` and the `evaluation`
asserts. -/
def GKRProtocol.prove {p : ℕ} (hash : List ℕ → List ℕ)
    (circuit : GKRCircuit) (input : List (ZMod p)) :
    Option (GKRProof p × TState) := do
  let circuit_eval ← circuit.evaluation input
  let w_0_mle ← w_mle (circuit_eval.headD [] ++ [(0 : ZMod p)])
  let ts0 := TState.new.commit w_0_mle.to_bytes
  let nr := TState.squeezeNFields p hash w_0_mle.n_vars ts0
  let claimed ← w_0_mle.evaluation nr.1
  let am1 ← circuit.add_mult_mle p 0
  let w_1_mle ← w_mle (circuit_eval.getD 1 [])
  let g1 ← generate_layer_one_prove_sumcheck hash am1.1 am1.2 w_1_mle nr.1
    claimed nr.2
  let rr ← gkrProveLayers hash circuit circuit_eval
    (List.range' 2 (circuit_eval.length - 2)) g1.1.1 g1.1.2.1 g1.1.2.2.1
    g1.1.2.2.2.1 g1.1.2.2.2.2 g1.2.2.2.2
  some (⟨g1.2.1 :: rr.1, g1.2.2.1 :: rr.2.1, g1.2.2.2.1 :: rr.2.2.1,
    w_0_mle⟩, rr.2.2.2)

/-- `generate_layer_one_verify_sumcheck` (`gkr/src/utils.rs`; the
`succint-gkr` copy is identical).  Returns `((status, new_claim),
transcript)`; `none` models the `verify_partial(..).unwrap()` panic and the
`evaluation` asserts. -/
def generate_layer_one_verify_sumcheck {p : ℕ} (hash : List ℕ → List ℕ)
    (add_mle mult_mle : Multilinear p) (proof : ComposedSumcheckProof p)
    (n_r : List (ZMod p)) (sum : ZMod p) (transcript : TState)
    (wb wc : ZMod p) : Option ((Bool × ZMod p) × TState) := do
  if sum ≠ proof.sum then
    some ((false, 0), transcript)
  else do
    let ts1 := transcript.commit proof.to_bytes
    let sub ← MultiComposedSumcheckVerifier.verify_partial hash proof
    let rbc := n_r ++ sub.1.challenges
    let add_bc ← add_mle.evaluation rbc
    let mul_bc ← mult_mle.evaluation rbc
    let fbc_eval := add_bc * (wb + wc) + mul_bc * (wb * wc)
    if fbc_eval ≠ sub.1.sum then
      some ((false, 0), ts1)
    else
      let a1 := ts1.squeezeField p hash
      let b1 := a1.2.squeezeField p hash
      some ((true, a1.1 * wb + b1.1 * wc), b1.2)

/-- The `GKRProtocol::verify` layer loop (`i` from 1), one entry per
remaining `(sumcheck_proof, wb, wc)` triple.  The `Bool` is `false` on the
early `return false` (claim mismatch); `none` models the
`verify_partial(..).unwrap()` panic. -/
def gkrVerifyLayers {p : ℕ} (hash : List ℕ → List ℕ) :
    List (ComposedSumcheckProof p × ZMod p × ZMod p) →
      ZMod p → ZMod p → ZMod p → List (ZMod p) → List (ZMod p) → TState →
      Option (Bool × ZMod p × ZMod p × ZMod p × List (ZMod p) ×
        List (ZMod p) × TState)
  | [], claimed, alpha, beta, r_b, r_c, ts =>
    some (true, claimed, alpha, beta, r_b, r_c, ts)
  | t :: rest, claimed, alpha, beta, r_b, r_c, ts =>
    if claimed ≠ t.1.sum then
      some (false, claimed, alpha, beta, r_b, r_c, ts)
    else do
      let ts1 := ts.commit t.1.to_bytes
      let sub ← MultiComposedSumcheckVerifier.verify_partial hash t.1
      let b := sub.1.challenges.take (sub.1.challenges.length / 2)
      let c := sub.1.challenges.drop (sub.1.challenges.length / 2)
      let a1 := ts1.squeezeField p hash
      let b1 := a1.2.squeezeField p hash
      gkrVerifyLayers hash rest (a1.1 * t.2.1 + b1.1 * t.2.2) a1.1 b1.1
        b c b1.2

/-- `GKRProtocol::verify`.  `some false` is a rejection, `none` a panic
(the `sumcheck_proofs[0]` index on an empty proof vector, the
`verify_partial(..).unwrap()`, or an `evaluation` assert). -/
def GKRProtocol.verify {p : ℕ} (hash : List ℕ → List ℕ)
    (circuit : GKRCircuit) (input : List (ZMod p)) (proof : GKRProof p) :
    Option Bool :=
  if proof.sumcheck_proofs.length ≠ proof.wb_s.length
      ∨ proof.sumcheck_proofs.length ≠ proof.wc_s.length then
    some false
  else
    match proof.sumcheck_proofs, proof.wb_s, proof.wc_s with
    | pf0 :: prest, wb0 :: wbrest, wc0 :: wcrest => do
      let ts0 := TState.new.commit proof.w_0_mle.to_bytes
      let nr := TState.squeezeNFields p hash proof.w_0_mle.n_vars ts0
      let claimed ← proof.w_0_mle.evaluation nr.1
      let am1 ← circuit.add_mult_mle p 0
      let g ← generate_layer_one_verify_sumcheck hash am1.1 am1.2 pf0
        nr.1 claimed nr.2 wb0 wc0
      if g.1.1 = false then some false
      else do
        let rr ← gkrVerifyLayers hash (prest.zip (wbrest.zip wcrest))
          g.1.2 0 0 [] [] g.2
        if rr.1 = false then some false
        else do
          let w_mle_input ← w_mle input
          let wbv ← w_mle_input.evaluation rr.2.2.2.2.1
          let wcv ← w_mle_input.evaluation rr.2.2.2.2.2.1
          some (decide (rr.2.1 = rr.2.2.1 * wbv + rr.2.2.2.1 * wcv))
    | _, _, _ => none

/-! ## Succinct GKR (`succint-gkr/src/succint_gkr.rs`) -/

/-- `SuccintGKRProof<P>` (the two opening proofs in exponent
representation). -/
structure SuccintGKRProof (p : ℕ) where
  sumcheck_proofs : List (ComposedSumcheckProof p)
  wb_s : List (ZMod p)
  wc_s : List (ZMod p)
  w_0_mle : Multilinear p
  proof_wb_opening : MultilinearKZGProof p
  proof_wc_opening : MultilinearKZGProof p
  deriving DecidableEq, Repr

/-- The `SuccintGKRProtocol::verify` layer loop: unlike the classical
verifier, `alpha` and `beta` are squeezed before the sub-sumcheck is
verified. -/
def succintVerifyLayers {p : ℕ} (hash : List ℕ → List ℕ) :
    List (ComposedSumcheckProof p × ZMod p × ZMod p) →
      ZMod p → ZMod p → ZMod p → List (ZMod p) → List (ZMod p) → TState →
      Option (Bool × ZMod p × ZMod p × ZMod p × List (ZMod p) ×
        List (ZMod p) × TState)
  | [], claimed, alpha, beta, r_b, r_c, ts =>
    some (true, claimed, alpha, beta, r_b, r_c, ts)
  | t :: rest, claimed, alpha, beta, r_b, r_c, ts =>
    if claimed ≠ t.1.sum then
      some (false, claimed, alpha, beta, r_b, r_c, ts)
    else do
      let ts1 := ts.commit t.1.to_bytes
      let a1 := ts1.squeezeField p hash
      let b1 := a1.2.squeezeField p hash
      let sub ← MultiComposedSumcheckVerifier.verify_partial hash t.1
      let b := sub.1.challenges.take (sub.1.challenges.length / 2)
      let c := sub.1.challenges.drop (sub.1.challenges.length / 2)
      succintVerifyLayers hash rest (a1.1 * t.2.1 + b1.1 * t.2.2) a1.1
        b1.1 b c b1.2

/-- `SuccintGKRProtocol::verify` (`succint_gkr.rs` lines 173-279): after
the layer loop the two KZG openings are verified; on failure both claimed
input evaluations default to zero and the run continues to the final
equality check `claimed_sum = alpha·w_b + beta·w_c`, the only remaining
rejection point. -/
def SuccintGKRProtocol.verify {p : ℕ} (hash : List ℕ → List ℕ)
    (circuit : GKRCircuit) (commitment : ZMod p)
    (proof : SuccintGKRProof p) (tau : TrustedSetup p) : Option Bool :=
  if proof.sumcheck_proofs.length ≠ proof.wb_s.length
      ∨ proof.sumcheck_proofs.length ≠ proof.wc_s.length then
    some false
  else
    match proof.sumcheck_proofs, proof.wb_s, proof.wc_s with
    | pf0 :: prest, wb0 :: wbrest, wc0 :: wcrest => do
      let ts0 := TState.new.commit proof.w_0_mle.to_bytes
      let nr := TState.squeezeNFields p hash proof.w_0_mle.n_vars ts0
      let claimed ← proof.w_0_mle.evaluation nr.1
      let am1 ← circuit.add_mult_mle p 0
      let g ← generate_layer_one_verify_sumcheck hash am1.1 am1.2 pf0
        nr.1 claimed nr.2 wb0 wc0
      if g.1.1 = false then some false
      else do
        let rr ← succintVerifyLayers hash (prest.zip (wbrest.zip wcrest))
          g.1.2 1 1 [] [] g.2
        if rr.1 = false then some false
        else
          let r_b := rr.2.2.2.2.1
          let r_c := rr.2.2.2.2.2.1
          let rb_clone := r_b ++ List.replicate
            (tau.powers_of_tau_in_g2.length - r_b.length) 0
          let rc_clone := r_c ++ List.replicate
            (tau.powers_of_tau_in_g2.length - r_c.length) 0
          let verify_rb := MultilinearKZG.verify commitment rb_clone
            proof.proof_wb_opening tau.powers_of_tau_in_g2
          let verify_rc := MultilinearKZG.verify commitment rc_clone
            proof.proof_wc_opening tau.powers_of_tau_in_g2
          let w_mle_rb_input :=
            if verify_rb && verify_rc then proof.proof_wb_opening.evaluation
            else 0
          let w_mle_rc_input :=
            if verify_rb && verify_rc then proof.proof_wc_opening.evaluation
            else 0
          some (decide (rr.2.1
            = rr.2.2.1 * w_mle_rb_input + rr.2.2.2.1 * w_mle_rc_input))
    | _, _, _ => none

/-- The repository's first GKR test circuit: output gate `Mul [0, 1]` over
the layer `[Add [0, 1], Mul [2, 3]]`. -/
def gkrCircuitOne : GKRCircuit :=
  ⟨[⟨[⟨GateType.mul, 0, 1⟩]⟩,
    ⟨[⟨GateType.add, 0, 1⟩, ⟨GateType.mul, 2, 3⟩]⟩]⟩

/-- A layered circuit outside the hardcoded canonical doubling shape: one
output gate directly over a four-gate layer (eight inputs). -/
def gkrCircuitFlat : GKRCircuit :=
  ⟨[⟨[⟨GateType.add, 0, 1⟩]⟩,
    ⟨[⟨GateType.add, 0, 1⟩, ⟨GateType.add, 2, 3⟩, ⟨GateType.add, 4, 5⟩,
      ⟨GateType.add, 6, 7⟩]⟩]⟩

theorem pick_pairs_foldl_spec (n v k : ℕ) (acc : List (ℕ × ℕ)) :
    (List.range k).foldl
      (fun result _ =>
        result ++ (List.range (n / 2 ^ v / 2)).map
          (fun y1 => (y1 + result.length * 2,
            n / 2 ^ v / 2 + y1 + result.length * 2)))
      acc
    = acc ++ (List.range k).flatMap (fun t =>
        (List.range (n / 2 ^ v / 2)).map (fun y =>
          ((acc.length + t * (n / 2 ^ v / 2)) * 2 + y,
           (acc.length + t * (n / 2 ^ v / 2)) * 2 + n / 2 ^ v / 2 + y))) := by
  induction k with
  | zero => simp
  | succ k ih =>
    have hflen : ((List.range k).flatMap (fun t =>
        (List.range (n / 2 ^ v / 2)).map (fun y =>
          ((acc.length + t * (n / 2 ^ v / 2)) * 2 + y,
           (acc.length + t * (n / 2 ^ v / 2)) * 2 + n / 2 ^ v / 2 + y)))).length
        = k * (n / 2 ^ v / 2) := by
      simp only [List.flatMap, List.length_flatten, List.map_map]
      have hc : (List.length ∘ fun t => (List.range (n / 2 ^ v / 2)).map (fun y =>
          ((acc.length + t * (n / 2 ^ v / 2)) * 2 + y,
           (acc.length + t * (n / 2 ^ v / 2)) * 2 + n / 2 ^ v / 2 + y)))
          = (fun _ : ℕ => n / 2 ^ v / 2) := by
        funext t; simp
      rw [hc]
      simp [mul_comm]
    rw [List.range_succ, List.foldl_append, ih, List.foldl_cons, List.foldl_nil,
      List.length_append, hflen, List.flatMap_append]
    simp only [List.flatMap_cons, List.flatMap_nil, List.append_nil,
      List.append_assoc]
    congr 1
    congr 1
    congr 1
    funext y
    simp only [Prod.mk.injEq]
    constructor <;> ring

theorem pick_pairs_eq_blocks (n v : ℕ) :
    pick_pairs_with_random_index n v = pickPairsBlocks n v := by
  rw [pick_pairs_with_random_index, pick_pairs_foldl_spec, pickPairsBlocks]
  simp only [List.nil_append, List.length_nil]
  congr 1
  funext t
  congr 1
  funext y
  simp

/-- At `variable_index = 0` the pairs are lower half against upper half of
the whole table. -/
theorem pick_pairs_zero (n : ℕ) :
    pick_pairs_with_random_index n 0 =
      (List.range (n / 2)).map (fun y => (y, n / 2 + y)) := by
  rw [pick_pairs_eq_blocks, pickPairsBlocks]
  norm_num
  rw [show List.range 1 = [0] from rfl]
  simp

theorem pe0_length {p : ℕ} (t : ZMod p) (l : List (ZMod p)) :
    (pe0 t l).length = l.length / 2 := by
  simp [pe0]
  omega

/-- `partial_evaluation` at variable 0 computes `pe0` on the table. -/
theorem partial_evaluation_zero_evals {p : ℕ} (m : Multilinear p)
    (t : ZMod p) :
    (m.partial_evaluation t 0).evaluations = pe0 t m.evaluations := by
  rw [Multilinear.partial_evaluation, pick_pairs_zero]
  apply List.ext_getElem
  · simp [pe0]
    omega
  · intro i h1 h2
    simp only [List.getElem_map, List.getElem_range, pe0, List.getElem_zipWith,
      List.getElem_take, List.getElem_drop]
    have hi : i < m.evaluations.length / 2 := by
      simpa using h1
    rw [List.getD_eq_getElem _ _ (by omega), List.getD_eq_getElem _ _ (by omega)]

theorem partial_evaluation_zero_nvars {p : ℕ} (m : Multilinear p)
    (t : ZMod p) :
    (m.partial_evaluation t 0).n_vars = m.n_vars - 1 := rfl

/-- Folding `partial_evaluation _ 0` over a structure tracks `pe0` on the
table. -/
theorem foldl_partial_evaluation_zero {p : ℕ} (m : Multilinear p)
    (points : List (ZMod p)) :
    (points.foldl (fun acc r => acc.partial_evaluation r 0) m).evaluations =
      points.foldl (fun acc r => pe0 r acc) m.evaluations := by
  induction points generalizing m with
  | nil => rfl
  | cons r rs ih =>
    simp only [List.foldl_cons]
    rw [ih, partial_evaluation_zero_evals]

theorem evaluation_eq_evalList {p : ℕ} (m : Multilinear p)
    (points : List (ZMod p)) (h : points.length = m.n_vars) :
    m.evaluation points = some (evalList m.evaluations points) := by
  rw [Multilinear.evaluation, if_pos h, evalList, foldl_partial_evaluation_zero]

theorem lin2_length {p : ℕ} (a b : ZMod p) (A B : List (ZMod p)) :
    (lin2 a b A B).length = min A.length B.length := by
  simp [lin2]

theorem pe0_eq_lin2 {p : ℕ} (t : ZMod p) (l : List (ZMod p)) :
    pe0 t l = lin2 (1 - t) t (l.take (l.length / 2)) (l.drop (l.length / 2)) := by
  unfold pe0 lin2
  congr 1
  funext x y
  ring

theorem pe0_lin2 {p : ℕ} (t a b : ZMod p) (A B : List (ZMod p))
    (h : A.length = B.length) :
    pe0 t (lin2 a b A B) = lin2 a b (pe0 t A) (pe0 t B) := by
  apply List.ext_getElem
  · simp [pe0_length, lin2_length, h]
  · intro i h1 h2
    have hl : (lin2 a b A B).length = A.length := by simp [lin2_length, h]
    have hi : i < A.length / 2 := by
      simpa [pe0_length, hl] using h1
    simp only [pe0, lin2, List.getElem_zipWith, List.getElem_take,
      List.getElem_drop, List.length_zipWith, h, min_self]
    ring

theorem evalList_lin2 {p : ℕ} (a b : ZMod p) (A B : List (ZMod p))
    (points : List (ZMod p)) (h : A.length = B.length) :
    evalList (lin2 a b A B) points =
      a * evalList A points + b * evalList B points := by
  induction points generalizing A B with
  | nil =>
    cases A with
    | nil =>
      cases B with
      | nil => simp [evalList, lin2]
      | cons x xs => simp at h
    | cons x xs =>
      cases B with
      | nil => simp at h
      | cons y ys => simp [evalList, lin2]
  | cons r rs ih =>
    have h2 : (pe0 r A).length = (pe0 r B).length := by
      simp [pe0_length, h]
    calc evalList (lin2 a b A B) (r :: rs)
        = evalList (pe0 r (lin2 a b A B)) rs := rfl
      _ = evalList (lin2 a b (pe0 r A) (pe0 r B)) rs := by rw [pe0_lin2 _ _ _ _ _ h]
      _ = a * evalList (pe0 r A) rs + b * evalList (pe0 r B) rs := ih _ _ h2
      _ = a * evalList A (r :: rs) + b * evalList B (r :: rs) := rfl

/-- Head splitting: evaluating at `r :: points` mixes the evaluations of the
lower and upper halves of the table. -/
theorem evalList_cons {p : ℕ} (r : ZMod p) (points : List (ZMod p))
    (l : List (ZMod p)) (h : 2 ∣ l.length) :
    evalList l (r :: points) =
      (1 - r) * evalList (l.take (l.length / 2)) points +
        r * evalList (l.drop (l.length / 2)) points := by
  have hlen : (l.take (l.length / 2)).length = (l.drop (l.length / 2)).length := by
    simp
    omega
  calc evalList l (r :: points) = evalList (pe0 r l) points := rfl
    _ = evalList (lin2 (1 - r) r (l.take (l.length / 2)) (l.drop (l.length / 2)))
          points := by rw [pe0_eq_lin2]
    _ = _ := evalList_lin2 _ _ _ _ _ hlen

theorem sum_lin2 {p : ℕ} (a b : ZMod p) (A B : List (ZMod p))
    (h : A.length = B.length) :
    (lin2 a b A B).sum = a * A.sum + b * B.sum := by
  induction A generalizing B with
  | nil =>
    cases B with
    | nil => simp [lin2]
    | cons y ys => simp at h
  | cons x xs ih =>
    cases B with
    | nil => simp at h
    | cons y ys =>
      simp only [lin2, List.zipWith_cons_cons, List.sum_cons] at *
      rw [ih ys (by simpa using h)]
      ring

theorem pe0_sum {p : ℕ} (t : ZMod p) (l : List (ZMod p)) (h : 2 ∣ l.length) :
    (pe0 t l).sum =
      (1 - t) * (l.take (l.length / 2)).sum + t * (l.drop (l.length / 2)).sum := by
  rw [pe0_eq_lin2]
  apply sum_lin2
  simp
  omega

/-! ## The pairing rule of `partial_evaluation` (claim C5) -/

theorem pickPairsBlocks_eq_msb (n v : ℕ) (hv : v < n) :
    pickPairsBlocks (2 ^ n) v = msbPairing n v := by
  unfold pickPairsBlocks msbPairing
  have h3 : 2 ^ (n - v) = 2 ^ (n - v - 1) * 2 := by
    rw [← pow_succ]
    congr 1
    omega
  have h1 : 2 ^ n / 2 ^ v = 2 ^ (n - v) :=
    Nat.pow_div (le_of_lt hv) (by norm_num)
  have h2 : 2 ^ (n - v) / 2 = 2 ^ (n - v - 1) := by
    rw [h3]
    simp
  rw [h1, h2]
  congr 1
  funext t
  congr 1
  funext y
  simp only [Prod.mk.injEq, h3, mul_assoc]

/-- The pairs the code processes differ from each other exactly in the bit of
weight `2^(n-1-v)` (bit `v` counted MSB-first on `n`-bit indices). -/
theorem msbPairing_mem_bits (n v : ℕ) (hv : v < n) (ij : ℕ × ℕ)
    (hmem : ij ∈ msbPairing n v) :
    ij.2 = ij.1 + 2 ^ (n - 1 - v) ∧
      ij.1.testBit (n - 1 - v) = false ∧
      ij.2.testBit (n - 1 - v) = true ∧
      ∀ k, k ≠ n - 1 - v → ij.1.testBit k = ij.2.testBit k := by
  simp only [msbPairing, List.mem_flatMap, List.mem_map, List.mem_range] at hmem
  obtain ⟨blk, hblk, y, hy, hij⟩ := hmem
  subst hij
  have hb : n - 1 - v = n - v - 1 := by omega
  have hy2 : y < 2 ^ (n - v) := by
    calc y < 2 ^ (n - v - 1) := hy
      _ ≤ 2 ^ (n - v) := Nat.pow_le_pow_right (by norm_num) (by omega)
  have hy3 : 2 ^ (n - v - 1) + y < 2 ^ (n - v) := by
    have h3 : 2 ^ (n - v) = 2 ^ (n - v - 1) * 2 := by
      rw [← pow_succ]
      congr 1
      omega
    omega
  have hcomm1 : blk * 2 ^ (n - v) + y = 2 ^ (n - v) * blk + y := by ring
  have hcomm2 : blk * 2 ^ (n - v) + 2 ^ (n - v - 1) + y =
      2 ^ (n - v) * blk + (2 ^ (n - v - 1) + y) := by ring
  refine ⟨by rw [hb]; omega, ?_, ?_, ?_⟩
  · rw [hb, hcomm1, Nat.testBit_mul_pow_two_add _ hy2, if_pos (by omega)]
    exact Nat.testBit_lt_two_pow hy
  · rw [hb, hcomm2, Nat.testBit_mul_pow_two_add _ hy3, if_pos (by omega),
      Nat.testBit_two_pow_add_eq, Nat.testBit_lt_two_pow hy]
    rfl
  · intro k hk
    rw [hb] at hk
    rw [hcomm1, hcomm2, Nat.testBit_mul_pow_two_add _ hy2,
      Nat.testBit_mul_pow_two_add _ hy3]
    by_cases hlt : k < n - v
    · rw [if_pos hlt, if_pos hlt]
      by_cases hsm : k < n - v - 1
      · rw [Nat.testBit_two_pow_add_gt hsm]
      · have hkb : k = n - v - 1 ∨ n - v - 1 < k := by omega
        rcases hkb with hkb | hkb
        · omega
        · have h1 : y < 2 ^ k :=
            lt_of_lt_of_le hy (Nat.pow_le_pow_right (by norm_num) (by omega))
          have h2 : 2 ^ (n - v - 1) + y < 2 ^ k := by
            have hk1 : n - v - 1 + 1 ≤ k := by omega
            calc 2 ^ (n - v - 1) + y < 2 ^ (n - v - 1) + 2 ^ (n - v - 1) := by omega
              _ = 2 ^ (n - v - 1 + 1) := by rw [pow_succ]; ring
              _ ≤ 2 ^ k := Nat.pow_le_pow_right (by norm_num) hk1
          rw [Nat.testBit_lt_two_pow h1, Nat.testBit_lt_two_pow h2]
    · rw [if_neg hlt, if_neg hlt]

/-- The pairing the code realizes, stated against `msbPairing`. -/
theorem partial_evaluation_pairs_msb {p : ℕ} (m : Multilinear p)
    (t : ZMod p) (v : ℕ) (hlen : m.evaluations.length = 2 ^ m.n_vars)
    (hv : v < m.n_vars) :
    (m.partial_evaluation t v).evaluations =
      (msbPairing m.n_vars v).map (fun ij =>
        t * m.evaluations.getD ij.2 0 +
          (1 - t) * m.evaluations.getD ij.1 0) := by
  rw [Multilinear.partial_evaluation, hlen, pick_pairs_eq_blocks,
    pickPairsBlocks_eq_msb _ _ hv]

/-! ## Variable lifting (claim C6) -/

theorem log2fuel_eq (fuel n : ℕ) (h : n ≤ fuel) :
    log2fuel fuel n = Nat.log2 n := by
  induction fuel generalizing n with
  | zero =>
    have hn : n = 0 := by omega
    subst hn
    rw [log2fuel, Nat.log2]
    norm_num
  | succ fuel ih =>
    rw [log2fuel, Nat.log2]
    by_cases h2 : n ≥ 2
    · rw [if_pos h2, if_pos h2, ih (n / 2) (by omega)]
    · rw [if_neg h2, if_neg h2]

theorem log2c_eq_log2 (n : ℕ) : log2c n = Nat.log2 n :=
  log2fuel_eq n n le_rfl

theorem log2_two_pow (m : ℕ) : log2c (2 ^ m) = m := by
  rw [log2c_eq_log2, Nat.log2_eq_log_two]
  exact Nat.log_pow (by norm_num) m

theorem add_to_front_loop {p : ℕ} (A : List (ZMod p)) (c : ℕ)
    (acc : List (ZMod p)) :
    (List.range c).foldl (fun acc _ => acc ++ A ++ A) acc
      = acc ++ (List.replicate (2 * c) A).flatten := by
  induction c with
  | zero => simp
  | succ c ih =>
    rw [List.range_succ, List.foldl_append, ih, List.foldl_cons, List.foldl_nil]
    rw [show 2 * (c + 1) = 2 * c + 1 + 1 by ring]
    rw [List.replicate_succ', List.replicate_succ']
    simp [List.flatten_append]

theorem length_flatten_replicate {p : ℕ} (A : List (ZMod p)) (c : ℕ) :
    ((List.replicate c A).flatten).length = c * A.length := by
  simp [List.length_flatten, List.map_replicate, List.sum_replicate,
    smul_eq_mul]

theorem add_to_front_spec {p : ℕ} (m : Multilinear p) (k : ℕ)
    (hlen : m.evaluations.length = 2 ^ m.n_vars) :
    (m.add_to_front k).evaluations
        = (List.replicate (2 ^ (k + 1)) m.evaluations).flatten ∧
      (m.add_to_front k).n_vars = m.n_vars + k + 1 := by
  have hev : (m.add_to_front k).evaluations
      = (List.replicate (2 ^ (k + 1)) m.evaluations).flatten := by
    show (List.range (2 ^ k)).foldl
        (fun acc _ => acc ++ m.evaluations ++ m.evaluations) [] = _
    rw [add_to_front_loop, List.nil_append, pow_succ, mul_comm]
  refine ⟨hev, ?_⟩
  show log2c ((List.range (2 ^ k)).foldl
      (fun acc _ => acc ++ m.evaluations ++ m.evaluations) []).length = _
  rw [add_to_front_loop, List.nil_append, length_flatten_replicate, hlen]
  rw [show (2 : ℕ) * 2 ^ k * 2 ^ m.n_vars = 2 ^ (m.n_vars + k + 1) from by
    rw [← pow_succ', ← pow_add]
    congr 1
    ring]
  exact log2_two_pow _

theorem length_flatMap_replicate {p : ℕ} (l : List (ZMod p)) (c : ℕ) :
    (l.flatMap (fun x => List.replicate c x)).length = l.length * c := by
  induction l with
  | nil => simp
  | cons x xs ih => simp [ih]; ring

theorem add_to_back_spec {p : ℕ} (m : Multilinear p) (k : ℕ)
    (hlen : m.evaluations.length = 2 ^ m.n_vars) :
    (m.add_to_back k).evaluations
        = m.evaluations.flatMap (fun x => List.replicate (2 ^ k) x) ∧
      (m.add_to_back k).n_vars = m.n_vars + k := by
  refine ⟨rfl, ?_⟩
  show log2c _ = _
  rw [length_flatMap_replicate, hlen, ← pow_add, log2_two_pow]

/-! ## Basic sumcheck completeness (claim C4) -/

theorem evalList_pair {p : ℕ} (a b t : ZMod p) :
    evalList [a, b] [t] = t * b + (1 - t) * a := by
  unfold evalList pe0
  simp

theorem proveRoundsBasic_chals_length {p : ℕ} (hash : List ℕ → List ℕ)
    (n : ℕ) (cur : Multilinear p) (ts : TState) :
    (proveRoundsBasic hash n cur ts).2.1.length = n := by
  induction n generalizing cur ts with
  | zero => rfl
  | succ n ih => simp [proveRoundsBasic, ih]

/-- Round-by-round completeness invariant of the basic sumcheck: the verifier
accepts every round of an honestly generated proof, ends with the prover's
challenge sequence and transcript state, and with final claim equal to the
polynomial evaluated at the challenges. -/
theorem basic_rounds_complete {p : ℕ} (hash : List ℕ → List ℕ) (n : ℕ)
    (cur : Multilinear p) (ts : TState)
    (hlen : cur.evaluations.length = 2 ^ n) :
    verifyRoundsBasic hash n (proveRoundsBasic hash n cur ts).1
        cur.evaluations.sum ts
      = some (true,
          evalList cur.evaluations (proveRoundsBasic hash n cur ts).2.1,
          (proveRoundsBasic hash n cur ts).2.1,
          (proveRoundsBasic hash n cur ts).2.2) := by
  induction n generalizing cur ts with
  | zero =>
    obtain ⟨x, hx⟩ := List.length_eq_one.mp (by simpa using hlen)
    simp [proveRoundsBasic, verifyRoundsBasic, hx, evalList]
  | succ n ih =>
    have hdvd : 2 ∣ cur.evaluations.length := ⟨2 ^ n, by rw [hlen, pow_succ]; ring⟩
    set u := cur.split_poly_into_two_and_sum_each_part with hu
    have hu_evals : u.evaluations =
        [(cur.evaluations.take (cur.evaluations.length / 2)).sum,
         (cur.evaluations.drop (cur.evaluations.length / 2)).sum] := rfl
    have hu_nv : u.n_vars = 1 := rfl
    set lo := (cur.evaluations.take (cur.evaluations.length / 2)).sum with hlo
    set hi := (cur.evaluations.drop (cur.evaluations.length / 2)).sum with hhi
    have he0 : u.evaluation [0] = some (0 * hi + (1 - 0) * lo) := by
      rw [evaluation_eq_evalList u [0] (by rw [hu_nv]; rfl), hu_evals,
        evalList_pair]
    have he1 : u.evaluation [1] = some (1 * hi + (1 - 1) * lo) := by
      rw [evaluation_eq_evalList u [1] (by rw [hu_nv]; rfl), hu_evals,
        evalList_pair]
    have hsum : (0 : ZMod p) * hi + (1 - 0) * lo + (1 * hi + (1 - 1) * lo)
        = cur.evaluations.sum := by
      rw [hlo, hhi, ← List.sum_take_add_sum_drop cur.evaluations
        (cur.evaluations.length / 2)]
      ring
    set ts1 := ts.commit u.to_bytes with hts1
    set r := ts1.squeezeField p hash with hr
    have hec : u.evaluation [r.1] = some (r.1 * hi + (1 - r.1) * lo) := by
      rw [evaluation_eq_evalList u [r.1] (by rw [hu_nv]; rfl), hu_evals,
        evalList_pair]
    set cur' := cur.partial_evaluation r.1 0 with hcur'
    have hcur'_evals : cur'.evaluations = pe0 r.1 cur.evaluations :=
      partial_evaluation_zero_evals cur r.1
    have hcur'_len : cur'.evaluations.length = 2 ^ n := by
      rw [hcur'_evals, pe0_length, hlen, pow_succ]
      omega
    have hclaim : r.1 * hi + (1 - r.1) * lo = cur'.evaluations.sum := by
      rw [hcur'_evals, pe0_sum _ _ hdvd, hlo, hhi]
      ring
    have hprove : proveRoundsBasic hash (n + 1) cur ts
        = (u :: (proveRoundsBasic hash n cur' r.2).1,
           r.1 :: (proveRoundsBasic hash n cur' r.2).2.1,
           (proveRoundsBasic hash n cur' r.2).2.2) := rfl
    rw [hprove]
    show verifyRoundsBasic hash (n + 1)
        (u :: (proveRoundsBasic hash n cur' r.2).1) cur.evaluations.sum ts = _
    rw [verifyRoundsBasic]
    rw [he0, he1]
    simp only [Option.bind_eq_bind, Option.some_bind]
    rw [if_neg (by rw [hsum]; simp)]
    rw [← hts1, ← hr, hec]
    simp only [Option.some_bind]
    rw [hclaim, ih cur' r.2 hcur'_len]
    have hfinal : evalList cur.evaluations
        (r.1 :: (proveRoundsBasic hash n cur' r.2).2.1)
        = evalList cur'.evaluations (proveRoundsBasic hash n cur' r.2).2.1 := by
      rw [hcur'_evals]
      rfl
    rw [hfinal]

/-- The `Sumcheck` protocol object built the way the repository's tests do:
`Sumcheck::new` (sum defaulted to zero) followed by `poly_sum`. -/
theorem C4_setup_sum {p : ℕ} (poly : Multilinear p) :
    (Sumcheck.poly_sum ⟨poly, 0⟩).sum = poly.evaluations.sum := rfl

/-- C4: basic sumcheck completeness.  For every table whose length matches
`2^n_vars`, proving with the hypercube sum and verifying the resulting proof
returns `true` (and in particular no panic), for every digest function. -/
theorem C4_basic_sumcheck_completeness {p : ℕ} (hash : List ℕ → List ℕ)
    (poly : Multilinear p) (hlen : poly.evaluations.length = 2 ^ poly.n_vars) :
    Sumcheck.verify hash (Sumcheck.poly_sum ⟨poly, 0⟩)
      (Sumcheck.prove hash (Sumcheck.poly_sum ⟨poly, 0⟩)).1 = some true := by
  unfold Sumcheck.verify Sumcheck.prove Sumcheck.poly_sum
  simp only
  rw [basic_rounds_complete hash poly.n_vars poly
    (TState.new.commit (fieldToBytes poly.evaluations.sum)) hlen]
  simp only [evaluation_eq_evalList poly _
    (proveRoundsBasic_chals_length hash poly.n_vars poly
      (TState.new.commit (fieldToBytes poly.evaluations.sum)))]
  simp

theorem msbPairing_len (n v : ℕ) (hv : v < n) :
    (msbPairing n v).length = 2 ^ n / 2 := by
  unfold msbPairing
  simp only [List.flatMap, List.length_flatten, List.map_map]
  have hc : (List.length ∘ fun blk => (List.range (2 ^ (n - v - 1))).map
      (fun y => (blk * 2 ^ (n - v) + y,
        blk * 2 ^ (n - v) + 2 ^ (n - v - 1) + y)))
      = (fun _ : ℕ => 2 ^ (n - v - 1)) := by
    funext t; simp
  rw [hc]
  simp only [List.map_const', List.length_range, List.sum_replicate, smul_eq_mul]
  rw [← pow_add]
  have h1 : v + (n - v - 1) = n - 1 := by omega
  rw [h1, show n = (n - 1) + 1 by omega, pow_succ]
  simp

/-! ## Dense coefficient-list evaluation -/

theorem evalCoeffs_nil {p : ℕ} (x : ZMod p) : evalCoeffs [] x = 0 := rfl

theorem evalCoeffs_cons {p : ℕ} (c : ZMod p) (cs : List (ZMod p))
    (x : ZMod p) : evalCoeffs (c :: cs) x = c + x * evalCoeffs cs x := rfl

/-- The monomial-list sum the source's `evaluate` computes on an
`enumFrom`-style listing equals Horner evaluation (up to the power offset). -/
theorem sum_enumFrom_pow {p : ℕ} (l : List (ZMod p)) (k : ℕ) (x : ZMod p) :
    ((l.enumFrom k).map (fun kc => kc.2 * x ^ kc.1)).sum
      = x ^ k * evalCoeffs l x := by
  induction l generalizing k with
  | nil => simp [evalCoeffs_nil]
  | cons c cs ih =>
    simp only [List.enumFrom_cons, List.map_cons, List.sum_cons, ih (k + 1),
      evalCoeffs_cons]
    ring

theorem sum_filter_nonzero {p : ℕ} (L : List (ℕ × ZMod p)) (x : ZMod p) :
    ((L.filter (fun kc => kc.2 ≠ 0)).map (fun kc => kc.2 * x ^ kc.1)).sum
      = (L.map (fun kc => kc.2 * x ^ kc.1)).sum := by
  induction L with
  | nil => rfl
  | cons q L ih =>
    by_cases hq : q.2 = 0
    · rw [List.filter_cons, if_neg (by simp [hq]), ih, List.map_cons,
        List.sum_cons, hq]
      ring
    · rw [List.filter_cons, if_pos (by simp [hq]), List.map_cons,
        List.sum_cons, ih, List.map_cons, List.sum_cons]

theorem evalCoeffs_zipAdd {p : ℕ} (A B : List (ZMod p)) (x : ZMod p)
    (h : A.length = B.length) :
    evalCoeffs (List.zipWith (· + ·) A B) x =
      evalCoeffs A x + evalCoeffs B x := by
  induction A generalizing B with
  | nil =>
    cases B with
    | nil => simp [evalCoeffs_nil]
    | cons y ys => simp at h
  | cons a as ih =>
    cases B with
    | nil => simp at h
    | cons b bs =>
      simp only [List.zipWith_cons_cons, evalCoeffs_cons,
        ih bs (by simpa using h)]
      ring

theorem evalCoeffs_map_mulRight {p : ℕ} (l : List (ZMod p)) (c x : ZMod p) :
    evalCoeffs (l.map (fun a => a * c)) x = evalCoeffs l x * c := by
  induction l with
  | nil => simp [evalCoeffs_nil]
  | cons a as ih =>
    simp only [List.map_cons, evalCoeffs_cons, ih]
    ring

theorem evalCoeffs_append_zero {p : ℕ} (l : List (ZMod p)) (x : ZMod p) :
    evalCoeffs (l ++ [0]) x = evalCoeffs l x := by
  induction l with
  | nil => simp [evalCoeffs_cons, evalCoeffs_nil]
  | cons a as ih => simp only [List.cons_append, evalCoeffs_cons, ih]

theorem evalCoeffs_zipSub {p : ℕ} (c : ZMod p) (A B : List (ZMod p))
    (x : ZMod p) (h : A.length = B.length) :
    evalCoeffs (List.zipWith (fun a b => a - c * b) A B) x =
      evalCoeffs A x - c * evalCoeffs B x := by
  induction A generalizing B with
  | nil =>
    cases B with
    | nil => simp [evalCoeffs_nil]
    | cons y ys => simp at h
  | cons a as ih =>
    cases B with
    | nil => simp at h
    | cons b bs =>
      simp only [List.zipWith_cons_cons, evalCoeffs_cons,
        ih bs (by simpa using h)]
      ring

theorem evalCoeffs_listMulXsub {p : ℕ} (c : ZMod p) (l : List (ZMod p))
    (x : ZMod p) :
    evalCoeffs (listMulXsub c l) x = (x - c) * evalCoeffs l x := by
  rw [listMulXsub, evalCoeffs_zipSub c _ _ _ (by simp), evalCoeffs_cons,
    evalCoeffs_append_zero]
  ring

theorem listMulXsub_length {p : ℕ} (c : ZMod p) (l : List (ZMod p)) :
    (listMulXsub c l).length = l.length + 1 := by
  simp [listMulXsub]

theorem evalCoeffs_replicate_zero {p : ℕ} (n : ℕ) (x : ZMod p) :
    evalCoeffs (List.replicate n 0) x = 0 := by
  induction n with
  | zero => rfl
  | succ n ih => rw [List.replicate_succ, evalCoeffs_cons, ih]; ring

/-! ## Interpolation (`UnivariatePolynomial::interpolation`) -/

/-- Dropping the zero coefficients when packing monomials does not change
the evaluation: `interpolation` evaluates like its dense coefficient list. -/
theorem evaluate_interpolation {p : ℕ} (pts : List (ZMod p × ZMod p))
    (x : ZMod p) :
    (UnivariatePolynomial.interpolation pts).evaluate x
      = evalCoeffs (pts.enum.foldl
          (fun res ip => List.zipWith (· + ·) res
            ((lagrange_basis pts ip.1).map (fun c => c * ip.2.2)))
          (List.replicate pts.length 0)) x := by
  unfold UnivariatePolynomial.interpolation UnivariatePolynomial.evaluate
  simp only [List.map_map]
  rw [show ((fun m : UniMonomial p => m.coeff * x ^ m.pow) ∘
      fun kc : ℕ × ZMod p => (⟨kc.2, kc.1⟩ : UniMonomial p))
    = fun kc : ℕ × ZMod p => kc.2 * x ^ kc.1 from rfl]
  rw [sum_filter_nonzero]
  rw [show (pts.enum.foldl
      (fun res ip => List.zipWith (· + ·) res
        ((lagrange_basis pts ip.1).map (fun c => c * ip.2.2)))
      (List.replicate pts.length 0)).enum
    = (pts.enum.foldl
      (fun res ip => List.zipWith (· + ·) res
        ((lagrange_basis pts ip.1).map (fun c => c * ip.2.2)))
      (List.replicate pts.length 0)).enumFrom 0 from rfl]
  rw [sum_enumFrom_pow]
  simp

theorem evalCoeffs_foldl_zipAdd {p : ℕ} {α : Type} (g : α → List (ZMod p))
    (L : List α) (init : List (ZMod p)) (x : ZMod p)
    (hg : ∀ a ∈ L, (g a).length = init.length) :
    evalCoeffs (L.foldl (fun res a => List.zipWith (· + ·) res (g a)) init) x
      = evalCoeffs init x + (L.map (fun a => evalCoeffs (g a) x)).sum := by
  induction L generalizing init with
  | nil => simp
  | cons a L ih =>
    have hga : (g a).length = init.length := hg a (List.mem_cons_self a L)
    have hlen : (List.zipWith (· + ·) init (g a)).length = init.length := by
      simp [hga]
    rw [List.foldl_cons, ih (List.zipWith (· + ·) init (g a))
      (fun b hb => by rw [hlen]; exact hg b (List.mem_cons_of_mem a hb))]
    rw [evalCoeffs_zipAdd _ _ _ hga.symm]
    simp [add_assoc]

theorem fold_mulXsub_length {p : ℕ} (i : ℕ)
    (L : List (ℕ × (ZMod p × ZMod p))) (acc : List (ZMod p)) :
    (L.foldl (fun acc jp =>
      if i ≠ jp.1 then listMulXsub jp.2.1 acc else acc) acc).length
      = acc.length + L.countP (fun jp => i ≠ jp.1) := by
  induction L generalizing acc with
  | nil => simp
  | cons q L ih =>
    rw [List.foldl_cons, ih, List.countP_cons]
    by_cases hq : i ≠ q.1
    · have hd : decide (i ≠ q.1) = true := by simpa using hq
      rw [if_pos hq, listMulXsub_length, hd]
      simp only [if_true]
      omega
    · have hd : decide (i ≠ q.1) = false := by simpa using hq
      rw [if_neg hq, hd]
      simp only [Bool.false_eq_true, if_false]
      omega

theorem fold_mulXsub_eval {p : ℕ} (i : ℕ)
    (L : List (ℕ × (ZMod p × ZMod p))) (acc : List (ZMod p)) (x : ZMod p) :
    evalCoeffs (L.foldl (fun acc jp =>
        if i ≠ jp.1 then listMulXsub jp.2.1 acc else acc) acc) x
      = evalCoeffs acc x *
          ((L.filter (fun jp => i ≠ jp.1)).map (fun jp => x - jp.2.1)).prod := by
  induction L generalizing acc with
  | nil => simp
  | cons q L ih =>
    rw [List.foldl_cons, List.filter_cons]
    by_cases hq : i ≠ q.1
    · rw [if_pos hq, if_pos (by simpa using hq), ih, evalCoeffs_listMulXsub]
      simp only [List.map_cons, List.prod_cons]
      ring
    · rw [if_neg hq, if_neg (by simpa using hq), ih]

theorem foldl_mul_eq_prod {p : ℕ} {α : Type} (f : α → ZMod p) (L : List α)
    (c : ZMod p) :
    L.foldl (fun acc a => acc * f a) c = c * (L.map f).prod := by
  induction L generalizing c with
  | nil => simp
  | cons a L ih =>
    rw [List.foldl_cons, ih, List.map_cons, List.prod_cons]
    ring

theorem lagrange_basis_length {p : ℕ} (pts : List (ZMod p × ZMod p)) (i : ℕ) :
    (lagrange_basis pts i).length
      = 1 + pts.enum.countP (fun jp => i ≠ jp.1) := by
  unfold lagrange_basis
  simp only [List.length_map]
  rw [fold_mulXsub_length]
  rfl

theorem evalCoeffs_lagrange_basis {p : ℕ} (pts : List (ZMod p × ZMod p))
    (i : ℕ) (x : ZMod p) :
    evalCoeffs (lagrange_basis pts i) x
      = ((pts.enum.filter (fun jp => i ≠ jp.1)).map
          (fun jp => x - jp.2.1)).prod *
        (((pts.enum.filter (fun jp => jp.1 ≠ i)).map
          (fun jp => (pts.getD i (0, 0)).1 - jp.2.1)).prod)⁻¹ := by
  unfold lagrange_basis
  simp only
  rw [evalCoeffs_map_mulRight, fold_mulXsub_eval, foldl_mul_eq_prod]
  rw [show evalCoeffs [(1 : ZMod p)] x = 1 by
    rw [evalCoeffs_cons, evalCoeffs_nil]; ring]
  rw [one_mul, one_mul]

/-! ## Interpolation correctness on the nodes `0, 1, …, n-1` -/

theorem enum_map_range {β : Type} (n : ℕ) (g : ℕ → β) :
    ((List.range n).map g).enum = (List.range n).map (fun j => (j, g j)) := by
  rw [List.enum_eq_zip_range, List.length_map, List.length_range]
  have h := List.zip_map' (id : ℕ → ℕ) g (List.range n)
  simpa using h

theorem getD_map_range {β : Type} (n i : ℕ) (hi : i < n) (g : ℕ → β)
    (d : β) : ((List.range n).map g).getD i d = g i := by
  rw [List.getD_eq_getElem _ _ (by simp [hi])]
  simp

theorem list_prod_range_finset {M : Type} [CommMonoid M] (n : ℕ)
    (h : ℕ → M) :
    ((List.range n).map h).prod = ∏ j ∈ Finset.range n, h j := by
  induction n with
  | zero => simp
  | succ n ih =>
    rw [List.range_succ, List.map_append, List.prod_append,
      Finset.prod_range_succ, ih]
    simp

theorem list_sum_range_finset {M : Type} [AddCommMonoid M] (n : ℕ)
    (h : ℕ → M) :
    ((List.range n).map h).sum = ∑ j ∈ Finset.range n, h j := by
  induction n with
  | zero => simp
  | succ n ih =>
    rw [List.range_succ, List.map_append, List.sum_append,
      Finset.sum_range_succ, ih]
    simp

theorem countP_ne_range (n i : ℕ) (hi : i < n) :
    (List.range n).countP (fun j => i ≠ j) = n - 1 := by
  induction n with
  | zero => omega
  | succ n ih =>
    rw [List.range_succ, List.countP_append]
    by_cases hin : i = n
    · subst hin
      have hall : (List.range i).countP (fun j => i ≠ j)
          = (List.range i).length := by
        apply List.countP_eq_length.mpr
        intro a ha
        simp only [List.mem_range] at ha
        simp
        omega
      rw [hall]
      simp
    · have hi2 : i < n := by omega
      rw [ih hi2]
      have : ([n].countP (fun j => i ≠ j)) = 1 := by
        simp [List.countP_cons]
        omega
      rw [this]
      omega

theorem prod_filter_if {M : Type} [CommMonoid M] (l : List ℕ) (q : ℕ → Prop)
    [DecidablePred q] (g : ℕ → M) :
    ((l.filter (fun j => decide (q j))).map g).prod
      = (l.map (fun j => if q j then g j else 1)).prod := by
  induction l with
  | nil => rfl
  | cons a l ih =>
    rw [List.filter_cons, List.map_cons, List.prod_cons]
    by_cases hq : q a
    · rw [if_pos (by simpa using hq), List.map_cons, List.prod_cons, ih,
        if_pos hq]
    · rw [if_neg (by simpa using hq), ih, if_neg hq, one_mul]

theorem prod_filter_ne_range {p : ℕ} (n i : ℕ) (g : ℕ → ZMod p) :
    (((List.range n).filter (fun j => decide (i ≠ j))).map g).prod
      = ∏ j ∈ (Finset.range n).erase i, g j := by
  rw [prod_filter_if, list_prod_range_finset, ← Finset.prod_filter,
    Finset.filter_ne]

theorem prod_filter_ne_range' {p : ℕ} (n i : ℕ) (g : ℕ → ZMod p) :
    (((List.range n).filter (fun j => decide (j ≠ i))).map g).prod
      = ∏ j ∈ (Finset.range n).erase i, g j := by
  rw [prod_filter_if, list_prod_range_finset, ← Finset.prod_filter,
    Finset.filter_ne']

theorem countP_enum_ne {p : ℕ} (n i : ℕ) (hi : i < n) (f : ℕ → ZMod p) :
    (((List.range n).map (fun j : ℕ => ((j : ZMod p), f j))).enum).countP
      (fun jp => i ≠ jp.1) = n - 1 := by
  rw [enum_map_range, List.countP_map]
  rw [show ((fun jp : ℕ × (ZMod p × ZMod p) => decide (i ≠ jp.1)) ∘
      fun j : ℕ => (j, ((j : ZMod p), f j))) = fun j => decide (i ≠ j) from rfl]
  exact countP_ne_range n i hi

theorem lagrange_basis_eval_nodes {p : ℕ} [Fact (Nat.Prime p)] (n i : ℕ)
    (hi : i < n) (f : ℕ → ZMod p) (x : ZMod p) :
    evalCoeffs (lagrange_basis
        ((List.range n).map (fun j : ℕ => ((j : ZMod p), f j))) i) x
      = Polynomial.eval x
          (Lagrange.basis (Finset.range n) (fun j : ℕ => (j : ZMod p)) i) := by
  rw [evalCoeffs_lagrange_basis, enum_map_range]
  rw [List.filter_map, List.filter_map, List.map_map, List.map_map]
  rw [show ((fun jp : ℕ × (ZMod p × ZMod p) => decide (i ≠ jp.1)) ∘
      fun j : ℕ => (j, ((j : ZMod p), f j))) = fun j : ℕ => decide (i ≠ j)
    from rfl]
  rw [show ((fun jp : ℕ × (ZMod p × ZMod p) => decide (jp.1 ≠ i)) ∘
      fun j : ℕ => (j, ((j : ZMod p), f j))) = fun j : ℕ => decide (j ≠ i)
    from rfl]
  rw [show ((fun jp : ℕ × (ZMod p × ZMod p) => x - jp.2.1) ∘
      fun j : ℕ => (j, ((j : ZMod p), f j)))
    = fun j : ℕ => x - (j : ZMod p) from rfl]
  rw [getD_map_range n i hi]
  rw [show ((fun jp : ℕ × (ZMod p × ZMod p) => ((i : ZMod p), f i).1 - jp.2.1) ∘
      fun j : ℕ => (j, ((j : ZMod p), f j)))
    = fun j : ℕ => (i : ZMod p) - (j : ZMod p) from rfl]
  rw [prod_filter_ne_range, prod_filter_ne_range']
  rw [Lagrange.basis, Polynomial.eval_prod]
  have hdiv : ∀ j ∈ (Finset.range n).erase i,
      Polynomial.eval x (Lagrange.basisDivisor ((i : ZMod p)) ((j : ZMod p)))
        = ((i : ZMod p) - (j : ZMod p))⁻¹ * (x - (j : ZMod p)) := by
    intro j hj
    simp [Lagrange.basisDivisor]
  rw [Finset.prod_congr rfl hdiv, Finset.prod_mul_distrib,
    Finset.prod_inv_distrib]
  ring

/-- Interpolation at the nodes `0, …, n-1` recovers any polynomial of degree
below `n` everywhere (`n ≤ p` keeps the nodes distinct in `ZMod p`). -/
theorem interpolation_evaluate_of_degree_lt {p : ℕ} [Fact (Nat.Prime p)]
    (n : ℕ) (hn : n ≤ p) (f : ℕ → ZMod p) (P : Polynomial (ZMod p))
    (hdeg : P.degree < (n : ℕ))
    (hf : ∀ j, j < n → f j = Polynomial.eval (j : ZMod p) P) (x : ZMod p) :
    (UnivariatePolynomial.interpolation
        ((List.range n).map (fun j : ℕ => ((j : ZMod p), f j)))).evaluate x
      = Polynomial.eval x P := by
  have hinj : Set.InjOn (fun j : ℕ => (j : ZMod p)) (Finset.range n) := by
    intro a ha b hb hab
    simp only [Finset.coe_range, Set.mem_Iio] at ha hb
    have hp0 : 0 < p := (Fact.out : Nat.Prime p).pos
    have ha' : ((a : ZMod p)).val = a := ZMod.val_cast_of_lt (by omega)
    have hb' : ((b : ZMod p)).val = b := ZMod.val_cast_of_lt (by omega)
    have hval : ((a : ZMod p)).val = ((b : ZMod p)).val := by
      simpa using congrArg ZMod.val hab
    rw [ha', hb'] at hval
    exact hval
  rw [evaluate_interpolation]
  have hg : ∀ a ∈ ((List.range n).map
        (fun j : ℕ => ((j : ZMod p), f j))).enum,
      ((lagrange_basis ((List.range n).map
          (fun j : ℕ => ((j : ZMod p), f j))) a.1).map
        (fun c => c * a.2.2)).length
      = (List.replicate ((List.range n).map
          (fun j : ℕ => ((j : ZMod p), f j))).length (0 : ZMod p)).length := by
    intro a ha
    rw [enum_map_range] at ha
    obtain ⟨j, hj, hja⟩ := List.mem_map.mp ha
    have ha1 : a.1 < n := by
      rw [← hja]
      simpa using hj
    rw [List.length_map, lagrange_basis_length, countP_enum_ne n a.1 ha1 f]
    simp
    omega
  rw [evalCoeffs_foldl_zipAdd _ _ _ x hg, evalCoeffs_replicate_zero, zero_add]
  rw [enum_map_range, List.map_map]
  have hterm : ∀ j ∈ List.range n,
      ((fun a : ℕ × (ZMod p × ZMod p) => evalCoeffs
          ((lagrange_basis ((List.range n).map
            (fun j : ℕ => ((j : ZMod p), f j))) a.1).map
            (fun c => c * a.2.2)) x) ∘
        fun j : ℕ => (j, ((j : ZMod p), f j))) j
      = Polynomial.eval x
          (Lagrange.basis (Finset.range n) (fun j : ℕ => (j : ZMod p)) j)
        * f j := by
    intro j hj
    have hj' : j < n := List.mem_range.mp hj
    show evalCoeffs ((lagrange_basis ((List.range n).map
        (fun j : ℕ => ((j : ZMod p), f j))) j).map (fun c => c * f j)) x = _
    rw [evalCoeffs_map_mulRight, lagrange_basis_eval_nodes n j hj' f x]
  rw [List.map_congr_left hterm, list_sum_range_finset]
  have hsum : ∑ j ∈ Finset.range n,
      Polynomial.eval x
        (Lagrange.basis (Finset.range n) (fun j : ℕ => (j : ZMod p)) j) * f j
      = Polynomial.eval x
          (Lagrange.interpolate (Finset.range n)
            (fun j : ℕ => (j : ZMod p)) f) := by
    rw [Lagrange.interpolate_apply, Polynomial.eval_finset_sum]
    apply Finset.sum_congr rfl
    intro j hj
    rw [Polynomial.eval_mul, Polynomial.eval_C]
    ring
  rw [hsum]
  rw [Lagrange.interpolate_eq_of_values_eq_on f
    (fun i => Polynomial.eval ((i : ZMod p)) P)
    (fun i hi => hf i (Finset.mem_range.mp hi))]
  rw [← Lagrange.eq_interpolate hinj (by rwa [Finset.card_range])]

/-! ## Multi-composed sumcheck completeness -/

theorem mergeMonomials_evaluate {p : ℕ} (a b : List (UniMonomial p))
    (x : ZMod p) :
    ((mergeMonomials a b).map (fun m => m.coeff * x ^ m.pow)).sum
      = (a.map (fun m => m.coeff * x ^ m.pow)).sum
        + (b.map (fun m => m.coeff * x ^ m.pow)).sum := by
  induction a, b using mergeMonomials.induct with
  | case1 r => simp [mergeMonomials]
  | case2 l ls => simp [mergeMonomials]
  | case3 l ls r rs hpow ih =>
    rw [mergeMonomials, if_pos hpow]
    simp only [List.map_cons, List.sum_cons, ih, hpow]
    ring
  | case4 l ls r rs hpow hlt ih =>
    rw [mergeMonomials, if_neg hpow, if_pos hlt]
    simp only [List.map_cons, List.sum_cons, ih]
    ring
  | case5 l ls r rs hpow hlt ih =>
    rw [mergeMonomials, if_neg hpow, if_neg hlt]
    simp only [List.map_cons, List.sum_cons, ih]
    ring

theorem evaluate_addUni {p : ℕ} (a b : UnivariatePolynomial p) (x : ZMod p) :
    (a.addUni b).evaluate x = a.evaluate x + b.evaluate x :=
  mergeMonomials_evaluate a.monomial b.monomial x

theorem foldl_addUni_evaluate {p : ℕ} (L : List (ComposedMultilinear p))
    (acc : UnivariatePolynomial p) (x : ZMod p) :
    ((L.foldl (fun a c => a.addUni (roundPolyOf c)) acc).evaluate x)
      = acc.evaluate x + (L.map (fun c => (roundPolyOf c).evaluate x)).sum := by
  induction L generalizing acc with
  | nil => simp [UnivariatePolynomial.evaluate]
  | cons c L ih =>
    rw [List.foldl_cons, ih, evaluate_addUni, List.map_cons, List.sum_cons]
    ring

theorem cmwf_head {p : ℕ} {c : ComposedMultilinear p} {nv : ℕ}
    (hwf : CMwf c nv) :
    (c.polys.headD ⟨0, []⟩).n_vars = nv ∧
      (c.polys.headD ⟨0, []⟩).evaluations.length = 2 ^ nv := by
  obtain ⟨hne, hall⟩ := hwf
  cases hc : c.polys with
  | nil => exact absurd hc hne
  | cons q rest =>
    have := hall q (by rw [hc]; exact List.mem_cons_self q rest)
    simpa [hc] using this

theorem partial_evaluation_zero_length {p : ℕ} (m : Multilinear p)
    (t : ZMod p) :
    (m.partial_evaluation t 0).evaluations.length
      = m.evaluations.length / 2 := by
  rw [partial_evaluation_zero_evals, pe0_length]

theorem cmwf_peval {p : ℕ} {c : ComposedMultilinear p} {nv : ℕ}
    (hwf : CMwf c nv) (hnv : 1 ≤ nv) (t : ZMod p) :
    CMwf (c.partial_evaluation t 0) (nv - 1) := by
  obtain ⟨hne, hall⟩ := hwf
  constructor
  · simpa [ComposedMultilinear.partial_evaluation] using hne
  · intro f hf
    simp only [ComposedMultilinear.partial_evaluation, List.mem_map] at hf
    obtain ⟨g, hg, hgf⟩ := hf
    obtain ⟨hg1, hg2⟩ := hall g hg
    subst hgf
    refine ⟨by rw [partial_evaluation_zero_nvars, hg1], ?_⟩
    rw [partial_evaluation_zero_length, hg2]
    have hsplit : (2 : ℕ) ^ nv = 2 ^ (nv - 1) * 2 := by
      rw [← pow_succ]
      congr 1
      omega
    omega

theorem pe0_getD {p : ℕ} (t : ZMod p) (l : List (ZMod p)) (i : ℕ)
    (hi : i < l.length / 2) :
    (pe0 t l).getD i 0 =
      t * l.getD (l.length / 2 + i) 0 + (1 - t) * l.getD i 0 := by
  have h1 : i < (pe0 t l).length := by rw [pe0_length]; exact hi
  rw [List.getD_eq_getElem _ _ h1]
  simp only [pe0, List.getElem_zipWith, List.getElem_take, List.getElem_drop]
  rw [List.getD_eq_getElem _ _ (by omega), List.getD_eq_getElem _ _ (by omega)]

/-- The per-round sample map `t ↦ Σ elementwise-product of the factors
partially evaluated at `t`` is the evaluation of a polynomial of degree at
most the number of factors. -/
theorem exists_round_poly {p : ℕ} (c : ComposedMultilinear p) (nv : ℕ)
    (hwf : CMwf c nv) (hnv : 1 ≤ nv) :
    ∃ P : Polynomial (ZMod p), P.natDegree ≤ c.max_degree ∧
      ∀ t : ZMod p,
        ((c.partial_evaluation t 0).element_wise_product).sum
          = Polynomial.eval t P := by
  refine ⟨∑ i ∈ Finset.range (2 ^ (nv - 1)),
    (c.polys.map (fun f =>
      Polynomial.C (f.evaluations.getD (2 ^ (nv - 1) + i) 0 -
          f.evaluations.getD i 0) * Polynomial.X
        + Polynomial.C (f.evaluations.getD i 0))).prod, ?_, ?_⟩
  · apply Polynomial.natDegree_sum_le_of_forall_le
    intro i _
    refine (Polynomial.natDegree_list_prod_le _).trans ?_
    rw [List.map_map]
    have hone : ∀ q ∈ c.polys.map ((Polynomial.natDegree (R := ZMod p)) ∘
        fun f => Polynomial.C (f.evaluations.getD (2 ^ (nv - 1) + i) 0 -
            f.evaluations.getD i 0) * Polynomial.X
          + Polynomial.C (f.evaluations.getD i 0)), q ≤ 1 := by
      intro q hq
      obtain ⟨f, _, hfq⟩ := List.mem_map.mp hq
      subst hfq
      show Polynomial.natDegree _ ≤ 1
      refine (Polynomial.natDegree_add_le _ _).trans ?_
      rw [max_le_iff]
      refine ⟨(Polynomial.natDegree_C_mul_le _ _).trans ?_, ?_⟩
      · exact Polynomial.natDegree_X_le
      · simp
    calc (c.polys.map _).sum ≤ (c.polys.map ((Polynomial.natDegree
          (R := ZMod p)) ∘ fun f =>
            Polynomial.C (f.evaluations.getD (2 ^ (nv - 1) + i) 0 -
                f.evaluations.getD i 0) * Polynomial.X
              + Polynomial.C (f.evaluations.getD i 0))).length • 1 :=
        List.sum_le_card_nsmul _ 1 hone
      _ = c.polys.length := by simp
      _ = c.max_degree := rfl
  · intro t
    have hhead : ((c.partial_evaluation t 0).polys.headD
        ⟨0, []⟩).evaluations.length = 2 ^ (nv - 1) :=
      (cmwf_head (cmwf_peval hwf hnv t)).2
    rw [ComposedMultilinear.element_wise_product, hhead,
      Polynomial.eval_finset_sum, list_sum_range_finset]
    apply Finset.sum_congr rfl
    intro i hi
    have hi' : i < 2 ^ (nv - 1) := Finset.mem_range.mp hi
    rw [Polynomial.eval_list_prod, List.map_map]
    show ((c.partial_evaluation t 0).polys.map
        (fun v => v.evaluations.getD i 0)).prod = _
    rw [ComposedMultilinear.partial_evaluation]
    simp only [List.map_map]
    apply congrArg List.prod
    apply List.map_congr_left
    intro f hf
    obtain ⟨hf1, hf2⟩ := hwf.2 f hf
    have hlen2 : f.evaluations.length / 2 = 2 ^ (nv - 1) := by
      have hsplit : (2 : ℕ) ^ nv = 2 ^ (nv - 1) * 2 := by
        rw [← pow_succ]
        congr 1
        omega
      rw [hf2, hsplit]
      omega
    show (f.partial_evaluation t 0).evaluations.getD i 0 = _
    rw [partial_evaluation_zero_evals,
      pe0_getD t _ i (by rw [hlen2]; exact hi'), hlen2]
    simp only [Function.comp, Polynomial.eval_add, Polynomial.eval_mul,
      Polynomial.eval_C, Polynomial.eval_X]
    ring

theorem convert_format_nodes {p : ℕ} (n : ℕ) (S : ℕ → ZMod p) :
    convert_round_poly_to_uni_poly_format ((List.range n).map S)
      = (List.range n).map (fun j : ℕ => ((j : ZMod p), S j)) := by
  rw [convert_round_poly_to_uni_poly_format, enum_map_range, List.map_map]
  rfl

/-- The interpolated round polynomial of one composed factor evaluates, at
every point, to the sum of the element-wise product of the factors partially
evaluated there (completeness of the sample-then-interpolate round step). -/
theorem roundPolyOf_evaluate {p : ℕ} [Fact (Nat.Prime p)]
    (c : ComposedMultilinear p) (nv : ℕ) (hwf : CMwf c nv) (hnv : 1 ≤ nv)
    (hdp : c.max_degree + 1 ≤ p) (t : ZMod p) :
    (roundPolyOf c).evaluate t
      = ((c.partial_evaluation t 0).element_wise_product).sum := by
  obtain ⟨P, hP1, hP2⟩ := exists_round_poly c nv hwf hnv
  have hdeg : P.degree < ((c.max_degree + 1 : ℕ) : WithBot ℕ) :=
    lt_of_le_of_lt Polynomial.degree_le_natDegree
      (by exact_mod_cast Nat.lt_succ_of_le hP1)
  have hI := interpolation_evaluate_of_degree_lt (c.max_degree + 1) hdp
    (fun i : ℕ =>
      ((c.partial_evaluation ((i : ZMod p)) 0).element_wise_product).sum)
    P hdeg (fun j _ => hP2 ((j : ZMod p))) t
  calc (roundPolyOf c).evaluate t
      = Polynomial.eval t P := by
        rw [roundPolyOf, roundPolySamples, convert_format_nodes]
        exact hI
    _ = _ := (hP2 t).symm

/-- The summed round polynomial of the multi-composed prover evaluates to the
sum over the composed polynomials of their partially-evaluated product sums. -/
theorem roundPolyTotal_evaluate {p : ℕ} [Fact (Nat.Prime p)] (nv : ℕ)
    (polys : List (ComposedMultilinear p)) (hnv : 1 ≤ nv)
    (hwf : ∀ c ∈ polys, CMwf c nv ∧ c.max_degree + 1 ≤ p) (t : ZMod p) :
    (roundPolyTotal polys).evaluate t
      = (polys.map (fun c =>
          ((c.partial_evaluation t 0).element_wise_product).sum)).sum := by
  rw [roundPolyTotal, foldl_addUni_evaluate]
  have hz : (UnivariatePolynomial.zero p).evaluate t = 0 := rfl
  rw [hz, zero_add]
  apply congrArg List.sum
  apply List.map_congr_left
  intro c hc
  exact roundPolyOf_evaluate c nv (hwf c hc).1 hnv (hwf c hc).2 t

/-- Splitting the hypercube sum on the first variable: the claimed sum equals
the partially-evaluated product sums at `0` and at `1` added together. -/
theorem calculate_poly_sum_split {p : ℕ} (c : ComposedMultilinear p) (nv : ℕ)
    (hwf : CMwf c nv) (hnv : 1 ≤ nv) :
    ComposedSumcheck.calculate_poly_sum c
      = ((c.partial_evaluation 0 0).element_wise_product).sum
        + ((c.partial_evaluation 1 0).element_wise_product).sum := by
  have hh := cmwf_head hwf
  have hsplit : (2 : ℕ) ^ nv = 2 ^ (nv - 1) + 2 ^ (nv - 1) := by
    have h2 : (2 : ℕ) ^ nv = 2 ^ (nv - 1) * 2 := by
      rw [← pow_succ]
      congr 1
      omega
    omega
  have hpe : ∀ t : ZMod p,
      (c.partial_evaluation t 0).element_wise_product
        = (List.range (2 ^ (nv - 1))).map (fun i =>
            (c.polys.map (fun f =>
              t * f.evaluations.getD (2 ^ (nv - 1) + i) 0
                + (1 - t) * f.evaluations.getD i 0)).prod) := by
    intro t
    rw [ComposedMultilinear.element_wise_product,
      (cmwf_head (cmwf_peval hwf hnv t)).2]
    apply List.map_congr_left
    intro i hi
    have hi' : i < 2 ^ (nv - 1) := List.mem_range.mp hi
    show (((c.polys.map (fun q => q.partial_evaluation t 0)).map
        (fun v => v.evaluations.getD i 0)).prod) = _
    rw [List.map_map]
    apply congrArg List.prod
    apply List.map_congr_left
    intro f hf
    obtain ⟨hf1, hf2⟩ := hwf.2 f hf
    have hlen2 : f.evaluations.length / 2 = 2 ^ (nv - 1) := by
      rw [hf2, hsplit]
      omega
    show (f.partial_evaluation t 0).evaluations.getD i 0 = _
    rw [partial_evaluation_zero_evals,
      pe0_getD t _ i (by rw [hlen2]; exact hi'), hlen2]
  rw [ComposedSumcheck.calculate_poly_sum,
    ComposedMultilinear.element_wise_product, hh.2, hpe 0, hpe 1, hsplit,
    List.range_add, List.map_append, List.sum_append]
  congr 1
  · apply congrArg List.sum
    apply List.map_congr_left
    intro i _
    apply congrArg List.prod
    apply List.map_congr_left
    intro f _
    show f.evaluations.getD i 0
        = 0 * f.evaluations.getD (2 ^ (nv - 1) + i) 0
          + (1 - 0) * f.evaluations.getD i 0
    ring
  · rw [List.map_map]
    apply congrArg List.sum
    apply List.map_congr_left
    intro i _
    show (c.polys.map
        (fun v => v.evaluations.getD (2 ^ (nv - 1) + i) 0)).prod
      = (c.polys.map (fun f =>
          1 * f.evaluations.getD (2 ^ (nv - 1) + i) 0
            + (1 - 1) * f.evaluations.getD i 0)).prod
    apply congrArg List.prod
    apply List.map_congr_left
    intro f _
    show f.evaluations.getD (2 ^ (nv - 1) + i) 0
        = 1 * f.evaluations.getD (2 ^ (nv - 1) + i) 0
          + (1 - 1) * f.evaluations.getD i 0
    ring

/-- With no variables left, the claimed sum is the product of the single
table entries, i.e. the full evaluation at the empty point list. -/
theorem calculate_poly_sum_zero {p : ℕ} (c : ComposedMultilinear p)
    (hwf : CMwf c 0) :
    ComposedSumcheck.calculate_poly_sum c = evalComposedList c [] := by
  have hh := cmwf_head hwf
  rw [ComposedSumcheck.calculate_poly_sum,
    ComposedMultilinear.element_wise_product, hh.2, pow_zero]
  rw [show List.range 1 = [0] from rfl]
  simp only [List.map_cons, List.map_nil, List.sum_cons, List.sum_nil,
    add_zero]
  rw [evalComposedList]
  apply congrArg List.prod
  apply List.map_congr_left
  intro f hf
  obtain ⟨hf1, hf2⟩ := hwf.2 f hf
  rw [pow_zero] at hf2
  show f.evaluations.getD 0 0 = evalList f.evaluations []
  cases hev : f.evaluations with
  | nil =>
    rw [hev] at hf2
    simp at hf2
  | cons a l => rfl

theorem list_map_add_sum {p : ℕ} {α : Type} (f g : α → ZMod p) (l : List α) :
    (l.map (fun x => f x + g x)).sum = (l.map f).sum + (l.map g).sum := by
  induction l with
  | nil => simp
  | cons a l ih =>
    simp only [List.map_cons, List.sum_cons, ih]
    ring

/-- Collapsing the first variable then evaluating the composed product at the
remaining points is evaluation at the extended point list. -/
theorem evalComposedList_cons {p : ℕ} (c : ComposedMultilinear p) (t : ZMod p)
    (rs : List (ZMod p)) :
    evalComposedList (c.partial_evaluation t 0) rs
      = evalComposedList c (t :: rs) := by
  rw [evalComposedList, evalComposedList]
  show ((c.polys.map (fun q => q.partial_evaluation t 0)).map
      (fun f => evalList f.evaluations rs)).prod = _
  rw [List.map_map]
  apply congrArg List.prod
  apply List.map_congr_left
  intro f _
  show evalList (f.partial_evaluation t 0).evaluations rs
      = evalList f.evaluations (t :: rs)
  rw [partial_evaluation_zero_evals]
  rfl

theorem evaluationC_foldl {p : ℕ} (rs : List (ZMod p))
    (L : List (Multilinear p)) :
    ∀ a : ZMod p, (∀ f ∈ L, rs.length = f.n_vars) →
      L.foldl (fun acc q => acc.bind
          (fun r => (q.evaluation rs).map (fun e => r * e))) (some a)
        = some (a * (L.map (fun f => evalList f.evaluations rs)).prod) := by
  induction L with
  | nil =>
    intro a _
    simp
  | cons f L ih =>
    intro a hall
    have he : f.evaluation rs = some (evalList f.evaluations rs) :=
      evaluation_eq_evalList f rs (hall f (List.mem_cons_self f L))
    have h1 : ((some a).bind
        (fun r => (f.evaluation rs).map (fun e => r * e)))
        = some (a * evalList f.evaluations rs) := by
      show (f.evaluation rs).map (fun e => a * e) = _
      rw [he]
      rfl
    simp only [List.foldl_cons]
    rw [h1, ih (a * evalList f.evaluations rs)
      (fun g hg => hall g (List.mem_cons_of_mem f hg))]
    simp only [List.map_cons, List.prod_cons]
    rw [mul_assoc]

/-- `ComposedMultilinear::evaluation` succeeds on a point list of matching
length, producing the product of the factor evaluations. -/
theorem evaluationC_eq {p : ℕ} (c : ComposedMultilinear p) (nv : ℕ)
    (hnv : ∀ f ∈ c.polys, f.n_vars = nv) (rs : List (ZMod p))
    (hlen : rs.length = nv) :
    c.evaluationC rs = some (evalComposedList c rs) := by
  rw [ComposedMultilinear.evaluationC,
    evaluationC_foldl rs c.polys 1 (fun f hf => by rw [hlen, hnv f hf]),
    one_mul, evalComposedList]

theorem oracle_foldl {p : ℕ} (rs : List (ZMod p)) (nv : ℕ)
    (hlen : rs.length = nv) (L : List (ComposedMultilinear p)) :
    ∀ a : ZMod p, (∀ c ∈ L, ∀ f ∈ c.polys, f.n_vars = nv) →
      L.foldl (fun acc c => acc.bind
          (fun s => (c.evaluationC rs).map (fun e => s + e))) (some a)
        = some (a + (L.map (fun c => evalComposedList c rs)).sum) := by
  induction L with
  | nil =>
    intro a _
    simp
  | cons c L ih =>
    intro a hall
    have h1 : ((some a).bind
        (fun s => (c.evaluationC rs).map (fun e => s + e)))
        = some (a + evalComposedList c rs) := by
      show (c.evaluationC rs).map (fun e => a + e) = _
      rw [evaluationC_eq c nv (hall c (List.mem_cons_self c L)) rs hlen]
      rfl
    simp only [List.foldl_cons]
    rw [h1, ih (a + evalComposedList c rs)
      (fun d hd => hall d (List.mem_cons_of_mem c hd))]
    simp only [List.map_cons, List.sum_cons]
    rw [add_assoc]

theorem proveRoundsComposed_chals_length {p : ℕ} (hash : List ℕ → List ℕ)
    (nv : ℕ) (polys : List (ComposedMultilinear p)) (ts : TState) :
    (proveRoundsComposed hash nv polys ts).2.1.length = nv := by
  induction nv generalizing polys ts with
  | zero => rfl
  | succ n ih => simp [proveRoundsComposed, ih]

/-- Round-by-round completeness invariant of the multi-composed sumcheck: the
verifier's round loop accepts every round of an honestly generated proof,
ends with the prover's challenge sequence and transcript state, and with
final claim equal to the sum of the composed polynomials evaluated at the
challenges. -/
theorem composed_rounds_complete {p : ℕ} [Fact (Nat.Prime p)]
    (hash : List ℕ → List ℕ) (nv : ℕ) :
    ∀ (polys : List (ComposedMultilinear p)) (ts : TState),
      (∀ c ∈ polys, CMwf c nv ∧ c.max_degree + 1 ≤ p) →
      verifyInternalRounds hash (proveRoundsComposed hash nv polys ts).1
          (MultiComposedSumcheckProver.calculate_poly_sum polys) ts
        = some ((polys.map (fun c => evalComposedList c
              (proveRoundsComposed hash nv polys ts).2.1)).sum,
            (proveRoundsComposed hash nv polys ts).2.1,
            (proveRoundsComposed hash nv polys ts).2.2) := by
  induction nv with
  | zero =>
    intro polys ts hwf
    have hS : MultiComposedSumcheckProver.calculate_poly_sum polys
        = (polys.map (fun c => evalComposedList c [])).sum := by
      rw [MultiComposedSumcheckProver.calculate_poly_sum]
      apply congrArg List.sum
      apply List.map_congr_left
      intro c hc
      exact calculate_poly_sum_zero c (hwf c hc).1
    show some (MultiComposedSumcheckProver.calculate_poly_sum polys, [], ts)
        = some ((polys.map (fun c => evalComposedList c [])).sum, [], ts)
    rw [hS]
  | succ nv ih =>
    intro polys ts hwf
    set r := (ts.commit (roundPolyTotal polys).to_bytes).squeezeField p hash
      with hr
    set polys' := polys.map (fun c => c.partial_evaluation r.1 0)
      with hpolys'
    set rest := proveRoundsComposed hash nv polys' r.2 with hrest
    have hwf' : ∀ c ∈ polys', CMwf c nv ∧ c.max_degree + 1 ≤ p := by
      intro c' hc'
      rw [hpolys'] at hc'
      obtain ⟨c, hc, hcc⟩ := List.mem_map.mp hc'
      obtain ⟨hcw, hcd⟩ := hwf c hc
      subst hcc
      refine ⟨?_, ?_⟩
      · have h := cmwf_peval hcw (by omega) r.1
        simpa using h
      · simpa [ComposedMultilinear.max_degree,
          ComposedMultilinear.partial_evaluation] using hcd
    have hprove : proveRoundsComposed hash (nv + 1) polys ts
        = (roundPolyTotal polys :: rest.1, r.1 :: rest.2.1, rest.2.2) := rfl
    have hcheck : MultiComposedSumcheckProver.calculate_poly_sum polys
        = (roundPolyTotal polys).evaluate 0
          + (roundPolyTotal polys).evaluate 1 := by
      rw [roundPolyTotal_evaluate (nv + 1) polys (by omega) hwf 0,
        roundPolyTotal_evaluate (nv + 1) polys (by omega) hwf 1,
        MultiComposedSumcheckProver.calculate_poly_sum, ← list_map_add_sum]
      apply congrArg List.sum
      apply List.map_congr_left
      intro c hc
      exact calculate_poly_sum_split c (nv + 1) (hwf c hc).1 (by omega)
    have hnew : (roundPolyTotal polys).evaluate r.1
        = MultiComposedSumcheckProver.calculate_poly_sum polys' := by
      rw [roundPolyTotal_evaluate (nv + 1) polys (by omega) hwf r.1,
        MultiComposedSumcheckProver.calculate_poly_sum, hpolys', List.map_map]
      apply congrArg List.sum
      apply List.map_congr_left
      intro c hc
      rfl
    have hSig : (polys'.map (fun c => evalComposedList c
        (proveRoundsComposed hash nv polys' r.2).2.1)).sum
        = (polys.map (fun c => evalComposedList c
            (r.1 :: (proveRoundsComposed hash nv polys' r.2).2.1))).sum := by
      rw [hpolys', List.map_map]
      apply congrArg List.sum
      apply List.map_congr_left
      intro c hc
      exact evalComposedList_cons c r.1 _
    rw [hprove]
    simp only [verifyInternalRounds]
    rw [← hr]
    rw [if_pos hcheck]
    rw [hnew, hrest, ih polys' r.2 hwf']
    simp only [Option.map_some']
    rw [hSig]

/-! ## Multilinear KZG correctness (claim C2) -/

theorem pe0_one {p : ℕ} (l : List (ZMod p)) (h : 2 ∣ l.length) :
    pe0 (1 : ZMod p) l = l.drop (l.length / 2) := by
  apply List.ext_getElem
  · simp [pe0]
    omega
  · intro i h1 h2
    simp only [pe0, List.getElem_zipWith, List.getElem_take,
      List.getElem_drop]
    ring

theorem pe0_zero {p : ℕ} (l : List (ZMod p)) (h : 2 ∣ l.length) :
    pe0 (0 : ZMod p) l = l.take (l.length / 2) := by
  apply List.ext_getElem
  · simp [pe0]
    omega
  · intro i h1 h2
    simp only [pe0, List.getElem_zipWith, List.getElem_take,
      List.getElem_drop]
    ring

theorem boolean_hypercube_length (p n : ℕ) :
    (boolean_hypercube p n).length = 2 ^ n := by
  simp [boolean_hypercube]

theorem generate_array_length {p : ℕ} (bh : List (List (ZMod p)))
    (τ : List (ZMod p)) :
    (generate_array_of_points bh τ).length = bh.length := by
  simp [generate_array_of_points]

theorem tau_g1_length {p : ℕ} (τ : List (ZMod p)) :
    (generate_powers_of_tau_in_g1 τ).length = 2 ^ τ.length := by
  rw [generate_powers_of_tau_in_g1, generate_array_length,
    boolean_hypercube_length]

theorem range_reverse_succ (n : ℕ) :
    (List.range (n + 1)).reverse = n :: (List.range n).reverse := by
  rw [List.range_succ]
  simp

theorem boolean_hypercube_succ (p n : ℕ) :
    boolean_hypercube p (n + 1)
      = (boolean_hypercube p n).map (fun v => (0 : ZMod p) :: v)
        ++ (boolean_hypercube p n).map (fun v => (1 : ZMod p) :: v) := by
  have h2 : (2 : ℕ) ^ (n + 1) = 2 ^ n + 2 ^ n := by
    rw [pow_succ]
    omega
  rw [boolean_hypercube, range_reverse_succ, h2, List.range_add,
    List.map_append, List.map_map]
  congr 1
  · rw [boolean_hypercube, List.map_map]
    apply List.map_congr_left
    intro i hi
    have hi' : i < 2 ^ n := List.mem_range.mp hi
    show (n :: (List.range n).reverse).map
        (fun j => if i / 2 ^ j % 2 = 1 then (1 : ZMod p) else 0)
      = (0 : ZMod p) :: (List.range n).reverse.map
          (fun j => if i / 2 ^ j % 2 = 1 then (1 : ZMod p) else 0)
    rw [List.map_cons]
    have hd : i / 2 ^ n = 0 := Nat.div_eq_of_lt hi'
    rw [hd]
    norm_num
  · rw [boolean_hypercube, List.map_map]
    apply List.map_congr_left
    intro i hi
    have hi' : i < 2 ^ n := List.mem_range.mp hi
    show (n :: (List.range n).reverse).map
        (fun j => if (2 ^ n + i) / 2 ^ j % 2 = 1 then (1 : ZMod p) else 0)
      = (1 : ZMod p) :: (List.range n).reverse.map
          (fun j => if i / 2 ^ j % 2 = 1 then (1 : ZMod p) else 0)
    rw [List.map_cons]
    have hd : (2 ^ n + i) / 2 ^ n = 1 := by
      rw [add_comm, Nat.add_div_right _ (Nat.pos_pow_of_pos n (by norm_num)),
        Nat.div_eq_of_lt hi']
    congr 1
    · rw [hd]
      norm_num
    · apply List.map_congr_left
      intro j hj
      have hj' : j < n := by
        have := List.mem_reverse.mp hj
        simpa using this
      have hpowsplit : (2 : ℕ) ^ n = 2 ^ j * 2 ^ (n - j) := by
        rw [← pow_add]
        congr 1
        omega
      have key : (2 ^ n + i) / 2 ^ j = 2 ^ (n - j) + i / 2 ^ j := by
        rw [hpowsplit, Nat.mul_add_div (Nat.pos_pow_of_pos j (by norm_num))]
      have heven : (2 : ℕ) ^ (n - j) = 2 * 2 ^ (n - j - 1) := by
        rw [← pow_succ']
        congr 1
        omega
      have hmod : (2 ^ n + i) / 2 ^ j % 2 = i / 2 ^ j % 2 := by
        rw [key, heven]
        omega
      rw [hmod]

theorem basis_succ {p : ℕ} (hp : (0 : ZMod p) ≠ 1) (t : ZMod p)
    (τ : List (ZMod p)) :
    generate_array_of_points (boolean_hypercube p (τ.length + 1)) (t :: τ)
      = (generate_array_of_points (boolean_hypercube p τ.length) τ).map
          (fun x => (1 - t) * x)
        ++ (generate_array_of_points (boolean_hypercube p τ.length) τ).map
          (fun x => t * x) := by
  rw [boolean_hypercube_succ, generate_array_of_points, List.map_append,
    List.map_map, List.map_map, generate_array_of_points, List.map_map,
    List.map_map]
  congr 1
  · apply List.map_congr_left
    intro v hv
    show ((((0 : ZMod p) :: v).zip (t :: τ)).map
        (fun bt => if bt.1 = 1 then bt.2 else 1 - bt.2)).prod = _
    rw [List.zip_cons_cons, List.map_cons, List.prod_cons, if_neg hp]
    rfl
  · apply List.map_congr_left
    intro v hv
    show ((((1 : ZMod p) :: v).zip (t :: τ)).map
        (fun bt => if bt.1 = 1 then bt.2 else 1 - bt.2)).prod = _
    rw [List.zip_cons_cons, List.map_cons, List.prod_cons, if_pos rfl]
    rfl

theorem zipWith_mul_left_sum {p : ℕ} (s : ZMod p) :
    ∀ A B : List (ZMod p),
      (List.zipWith (fun c b => s * b * c) A B).sum
        = s * (List.zipWith (fun c b => b * c) A B).sum := by
  intro A
  induction A with
  | nil =>
    intro B
    simp
  | cons a A ih =>
    intro B
    cases B with
    | nil => simp
    | cons b B =>
      simp only [List.zipWith_cons_cons, List.sum_cons, ih B]
      ring

/-- The commitment dot product against the hypercube Lagrange values at `τ`
is the multilinear extension evaluated at `τ`. -/
theorem dot_basis {p : ℕ} (hp : (0 : ZMod p) ≠ 1) :
    ∀ (τ l : List (ZMod p)), l.length = 2 ^ τ.length →
      (List.zipWith (fun c t => t * c) l
        (generate_array_of_points (boolean_hypercube p τ.length) τ)).sum
        = evalList l τ := by
  intro τ
  induction τ with
  | nil =>
    intro l hl
    obtain ⟨x, hx⟩ := List.length_eq_one.mp (by simpa using hl)
    subst hx
    show (List.zipWith (fun c t => t * c) [x]
      (generate_array_of_points (boolean_hypercube p 0) [])).sum = _
    simp [generate_array_of_points, boolean_hypercube, evalList]
  | cons t τr ih =>
    intro l hl
    rw [List.length_cons] at hl
    have h2 : (2 : ℕ) ^ (τr.length + 1) = 2 ^ τr.length + 2 ^ τr.length := by
      rw [pow_succ]
      omega
    have hlo : (l.take (2 ^ τr.length)).length = 2 ^ τr.length := by
      rw [List.length_take]
      omega
    have hhi : (l.drop (2 ^ τr.length)).length = 2 ^ τr.length := by
      rw [List.length_drop]
      omega
    have hbl : (generate_array_of_points (boolean_hypercube p τr.length)
        τr).length = 2 ^ τr.length := by
      rw [generate_array_length, boolean_hypercube_length]
    show (List.zipWith (fun c t => t * c) l
      (generate_array_of_points (boolean_hypercube p (τr.length + 1))
        (t :: τr))).sum = _
    rw [basis_succ hp t τr]
    calc (List.zipWith (fun c t => t * c) l
        ((generate_array_of_points (boolean_hypercube p τr.length) τr).map
            (fun x => (1 - t) * x)
          ++ (generate_array_of_points (boolean_hypercube p τr.length)
              τr).map (fun x => t * x))).sum
        = (List.zipWith (fun c t => t * c) (l.take (2 ^ τr.length))
            ((generate_array_of_points (boolean_hypercube p τr.length)
              τr).map (fun x => (1 - t) * x))).sum
          + (List.zipWith (fun c t => t * c) (l.drop (2 ^ τr.length))
              ((generate_array_of_points (boolean_hypercube p τr.length)
                τr).map (fun x => t * x))).sum := by
          rw [← List.sum_append, ← List.zipWith_append]
          · rw [List.take_append_drop]
          · rw [hlo, List.length_map, hbl]
      _ = (1 - t) * evalList (l.take (2 ^ τr.length)) τr
          + t * evalList (l.drop (2 ^ τr.length)) τr := by
          rw [List.zipWith_map_right, List.zipWith_map_right]
          have e1 : (List.zipWith (fun c x => (1 - t) * x * c)
              (l.take (2 ^ τr.length))
              (generate_array_of_points (boolean_hypercube p τr.length)
                τr)).sum
              = (1 - t) * evalList (l.take (2 ^ τr.length)) τr := by
            rw [zipWith_mul_left_sum, ih _ hlo]
          have e2 : (List.zipWith (fun c x => t * x * c)
              (l.drop (2 ^ τr.length))
              (generate_array_of_points (boolean_hypercube p τr.length)
                τr)).sum
              = t * evalList (l.drop (2 ^ τr.length)) τr := by
            rw [zipWith_mul_left_sum, ih _ hhi]
          rw [e1, e2]
      _ = evalList l (t :: τr) := by
          have hdvd : 2 ∣ l.length := by omega
          have hhalf : l.length / 2 = 2 ^ τr.length := by omega
          rw [evalList_cons t τr l hdvd, hhalf]

/-- Committing against the trusted setup from secret `τ` evaluates the
multilinear extension at `τ` (in the exponent). -/
theorem commitment_eq {p : ℕ} (hp : (0 : ZMod p) ≠ 1) (M : Multilinear p)
    (τ : List (ZMod p)) (hlen : M.evaluations.length = 2 ^ τ.length) :
    MultilinearKZG.commitment M (generate_powers_of_tau_in_g1 τ)
      = some (evalList M.evaluations τ) := by
  rw [MultilinearKZG.commitment, if_pos (by rw [tau_g1_length, hlen])]
  rw [generate_powers_of_tau_in_g1]
  rw [dot_basis hp τ M.evaluations hlen]

theorem zipWith_comb_self {p : ℕ} (t : ZMod p) :
    ∀ l : List (ZMod p),
      List.zipWith (fun a b => t * b + (1 - t) * a) l l = l := by
  intro l
  induction l with
  | nil => rfl
  | cons x xs ih =>
    simp only [List.zipWith_cons_cons, ih]
    congr 1
    ring

theorem pe0_append_self {p : ℕ} (t : ZMod p) (l : List (ZMod p)) :
    pe0 t (l ++ l) = l := by
  have hlen : (l ++ l).length / 2 = l.length := by
    simp
    omega
  rw [pe0, hlen, List.take_left, List.drop_left, zipWith_comb_self]

theorem evalList_append_self {p : ℕ} (t : ZMod p) (ts l : List (ZMod p)) :
    evalList (l ++ l) (t :: ts) = evalList l ts := by
  show evalList (pe0 t (l ++ l)) ts = _
  rw [pe0_append_self]

theorem evalList_flatten_replicate {p : ℕ} :
    ∀ (k : ℕ) (l ps qs : List (ZMod p)), ps.length = k →
      evalList ((List.replicate (2 ^ k) l).flatten) (ps ++ qs)
        = evalList l qs := by
  intro k
  induction k with
  | zero =>
    intro l ps qs hps
    rw [List.length_eq_zero.mp hps]
    simp
  | succ k ih =>
    intro l ps qs hps
    cases ps with
    | nil => simp at hps
    | cons a ps =>
      have h2 : (2 : ℕ) ^ (k + 1) = 2 ^ k + 2 ^ k := by
        rw [pow_succ]
        omega
      rw [h2, List.replicate_add, List.flatten_append, List.cons_append,
        evalList_append_self, ih l ps qs (by simpa using hps)]

/-- The `add_to_front` table, with no well-formedness hypothesis. -/
theorem add_to_front_evals {p : ℕ} (m : Multilinear p) (k : ℕ) :
    (m.add_to_front k).evaluations
      = (List.replicate (2 ^ (k + 1)) m.evaluations).flatten := by
  show (List.range (2 ^ k)).foldl
      (fun acc _ => acc ++ m.evaluations ++ m.evaluations) [] = _
  rw [add_to_front_loop, List.nil_append, pow_succ, mul_comm]

theorem zipWith_sub_eq_lin2 {p : ℕ} (A B : List (ZMod p)) :
    List.zipWith (· - ·) A B = lin2 1 (-1) A B := by
  rw [lin2]
  congr 1
  funext x y
  ring

theorem evalList_zipWith_sub {p : ℕ} (A B pts : List (ZMod p))
    (h : A.length = B.length) :
    evalList (List.zipWith (· - ·) A B) pts
      = evalList A pts - evalList B pts := by
  rw [zipWith_sub_eq_lin2, evalList_lin2 _ _ _ _ _ h]
  ring

/-- The quotient table is upper half minus lower half. -/
theorem quotient_evals {p : ℕ} (M : Multilinear p)
    (h : 2 ∣ M.evaluations.length) :
    (get_poly_quotient M).evaluations
      = List.zipWith (· - ·)
          (M.evaluations.drop (M.evaluations.length / 2))
          (M.evaluations.take (M.evaluations.length / 2)) := by
  show List.zipWith (· - ·) (M.partial_evaluation 1 0).evaluations
      (M.partial_evaluation 0 0).evaluations = _
  rw [partial_evaluation_zero_evals, partial_evaluation_zero_evals,
    pe0_one _ h, pe0_zero _ h]

/-- Invariant of the `MultilinearKZG::open` round loop: the rounds succeed,
the final-round remainder is the full evaluation at the requested point, and
the pairing sum telescopes to the difference of the evaluations at the
secret suffix and at the requested point. -/
theorem openRounds_spec {p : ℕ} (hp : (0 : ZMod p) ≠ 1)
    (τ : List (ZMod p)) :
    ∀ (points : List (ZMod p)) (i : ℕ) (M : Multilinear p),
      points ≠ [] →
      M.n_vars = points.length →
      M.evaluations.length = 2 ^ points.length →
      i + points.length = τ.length →
      (1 ≤ i ∨ 2 ≤ points.length) →
      ∃ proofs : List (ZMod p),
        openRounds (generate_powers_of_tau_in_g1 τ) i M points
            = some (proofs, evalList M.evaluations points) ∧
          sum_pairing_results (τ.drop i) points proofs
            = evalList M.evaluations (τ.drop i)
              - evalList M.evaluations points := by
  intro points
  induction points with
  | nil =>
    intro i M hne
    exact absurd rfl hne
  | cons r rest ih =>
    intro i M hne hnv hlen hiτ hdisj
    have hdvd : 2 ∣ M.evaluations.length := by
      rw [hlen, List.length_cons, pow_succ]
      omega
    have hiτ' : i < τ.length := by
      rw [List.length_cons] at hiτ
      omega
    cases rest with
    | nil =>
      have hi1 : 1 ≤ i := by
        rcases hdisj with h | h
        · exact h
        · simp at h
      obtain ⟨a, b, hab⟩ := List.length_eq_two.mp
        (by rw [hlen]; rfl : M.evaluations.length = 2)
      obtain ⟨x, hx⟩ : ∃ x, τ.drop i = [x] := by
        apply List.length_eq_one.mp
        rw [List.length_drop]
        rw [List.length_cons, List.length_nil] at hiτ
        omega
      have hq : (get_poly_quotient M).evaluations = [b - a] := by
        rw [quotient_evals M hdvd, hab]
        norm_num
      have heval : M.evaluation [r] = some (evalList M.evaluations [r]) :=
        evaluation_eq_evalList M [r] (by rw [hnv])
      have hdup : (Multilinear.duplicate_evaluation
          (get_poly_quotient M).evaluations).evaluations
          = [b - a] ++ [b - a] := by
        show (get_poly_quotient M).evaluations
          ++ (get_poly_quotient M).evaluations = _
        rw [hq]
      have hblown : ((Multilinear.duplicate_evaluation
          (get_poly_quotient M).evaluations).add_to_front
            (i - 1)).evaluations
          = (List.replicate (2 ^ i) ([b - a] ++ [b - a])).flatten := by
        rw [add_to_front_evals, hdup]
        rw [show i - 1 + 1 = i from by omega]
      have hblen : (((Multilinear.duplicate_evaluation
          (get_poly_quotient M).evaluations).add_to_front
            (i - 1)).evaluations).length = 2 ^ τ.length := by
        rw [hblown, length_flatten_replicate]
        rw [List.length_cons, List.length_nil] at hiτ
        rw [show ([b - a] ++ [b - a] : List (ZMod p)).length = 2 from rfl,
          ← hiτ, pow_succ]
      have hcommit : MultilinearKZG.commitment
          ((Multilinear.duplicate_evaluation
            (get_poly_quotient M).evaluations).add_to_front (i - 1))
          (generate_powers_of_tau_in_g1 τ)
          = some (b - a) := by
        rw [commitment_eq hp _ τ hblen, hblown]
        have hsplitτ : τ.take i ++ τ.drop i = τ := List.take_append_drop i τ
        rw [← hsplitτ, evalList_flatten_replicate i _ _ _
          (by rw [List.length_take]; omega)]
        rw [hx]
        rw [show ([x] : List (ZMod p)) = x :: [] from rfl]
        rw [evalList_append_self]
        rfl
      refine ⟨[b - a], ?_, ?_⟩
      · show (do
          let quotient := get_poly_quotient M
          let fr ← M.evaluation [r]
          if i = 0 then none
          else do
            let blown := (Multilinear.duplicate_evaluation
              quotient.evaluations).add_to_front (i - 1)
            let pf ← MultilinearKZG.commitment blown
              (generate_powers_of_tau_in_g1 τ)
            some ([pf], fr) : Option (List (ZMod p) × ZMod p)) = _
        rw [heval]
        show (if i = 0 then none
          else do
            let pf ← MultilinearKZG.commitment
              ((Multilinear.duplicate_evaluation
                (get_poly_quotient M).evaluations).add_to_front (i - 1))
              (generate_powers_of_tau_in_g1 τ)
            some ([pf], evalList M.evaluations [r]) :
            Option (List (ZMod p) × ZMod p)) = _
        rw [if_neg (by omega), hcommit]
        rfl
      · rw [hx, hab]
        show ((b - a) * (x - r) + 0 : ZMod p) = _
        rw [evalList_pair, evalList_pair]
        ring
    | cons r2 rest2 =>
      have hhalf : M.evaluations.length / 2 = 2 ^ (r2 :: rest2).length := by
        rw [hlen, List.length_cons, pow_succ]
        omega
      have hql : (get_poly_quotient M).evaluations.length
          = 2 ^ (r2 :: rest2).length := by
        rw [quotient_evals M hdvd, List.length_zipWith, List.length_drop,
          List.length_take]
        rw [hlen, List.length_cons, pow_succ] at *
        omega
      have hrem_nv : (get_poly_remainder M r).n_vars
          = (r2 :: rest2).length := by
        show (M.partial_evaluation r 0).n_vars = _
        rw [partial_evaluation_zero_nvars, hnv]
        rfl
      have hrem_len : (get_poly_remainder M r).evaluations.length
          = 2 ^ (r2 :: rest2).length := by
        show (M.partial_evaluation r 0).evaluations.length = _
        rw [partial_evaluation_zero_length, hhalf]
      obtain ⟨proofs', hopen', hsum'⟩ := ih (i + 1) (get_poly_remainder M r)
        (by simp) hrem_nv hrem_len
        (by rw [List.length_cons] at hiτ; omega) (Or.inl (by omega))
      have hblown : ((get_poly_quotient M).add_to_front i).evaluations
          = (List.replicate (2 ^ (i + 1))
              (get_poly_quotient M).evaluations).flatten :=
        add_to_front_evals _ i
      have hblen : (((get_poly_quotient M).add_to_front i).evaluations).length
          = 2 ^ τ.length := by
        rw [hblown, length_flatten_replicate, hql, ← pow_add]
        congr 1
        rw [List.length_cons] at hiτ
        omega
      have hcommit : MultilinearKZG.commitment
          ((get_poly_quotient M).add_to_front i)
          (generate_powers_of_tau_in_g1 τ)
          = some (evalList (get_poly_quotient M).evaluations
              (τ.drop (i + 1))) := by
        rw [commitment_eq hp _ τ hblen, hblown]
        congr 1
        calc evalList ((List.replicate (2 ^ (i + 1))
              (get_poly_quotient M).evaluations).flatten) τ
            = evalList ((List.replicate (2 ^ (i + 1))
                (get_poly_quotient M).evaluations).flatten)
              (τ.take (i + 1) ++ τ.drop (i + 1)) := by
              rw [List.take_append_drop]
          _ = evalList (get_poly_quotient M).evaluations
              (τ.drop (i + 1)) := by
              apply evalList_flatten_replicate (i + 1)
              have hc := hiτ
              rw [List.length_cons] at hc
              rw [List.length_take]
              omega
      refine ⟨evalList (get_poly_quotient M).evaluations (τ.drop (i + 1))
        :: proofs', ?_, ?_⟩
      · show (do
          let pf ← MultilinearKZG.commitment
            ((get_poly_quotient M).add_to_front i)
            (generate_powers_of_tau_in_g1 τ)
          let rr ← openRounds (generate_powers_of_tau_in_g1 τ) (i + 1)
            (get_poly_remainder M r) (r2 :: rest2)
          some (pf :: rr.1, rr.2) : Option (List (ZMod p) × ZMod p)) = _
        rw [hcommit, hopen']
        show some (_, evalList (get_poly_remainder M r).evaluations
          (r2 :: rest2)) = _
        have hre : evalList (get_poly_remainder M r).evaluations
            (r2 :: rest2) = evalList M.evaluations (r :: r2 :: rest2) := by
          show evalList (M.partial_evaluation r 0).evaluations _ = _
          rw [partial_evaluation_zero_evals]
          rfl
        rw [hre]
      · have hdropτ : τ.drop i = τ.get ⟨i, hiτ'⟩ :: τ.drop (i + 1) :=
          List.drop_eq_get_cons hiτ'
        rw [hdropτ]
        show (evalList (get_poly_quotient M).evaluations (τ.drop (i + 1))
            * (τ.get ⟨i, hiτ'⟩ - r)
            + sum_pairing_results (τ.drop (i + 1)) (r2 :: rest2) proofs')
          = _
        rw [hsum']
        have htl : (M.evaluations.take (M.evaluations.length / 2)).length
            = (M.evaluations.drop (M.evaluations.length / 2)).length := by
          rw [List.length_take, List.length_drop]
          omega
        have hqe : evalList (get_poly_quotient M).evaluations (τ.drop (i + 1))
            = evalList (M.evaluations.drop (M.evaluations.length / 2))
                (τ.drop (i + 1))
              - evalList (M.evaluations.take (M.evaluations.length / 2))
                (τ.drop (i + 1)) := by
          rw [quotient_evals M hdvd, evalList_zipWith_sub _ _ _ htl.symm]
        have hre : ∀ pts : List (ZMod p),
            evalList (get_poly_remainder M r).evaluations pts
              = (1 - r) * evalList
                  (M.evaluations.take (M.evaluations.length / 2)) pts
                + r * evalList
                  (M.evaluations.drop (M.evaluations.length / 2)) pts := by
          intro pts
          show evalList (M.partial_evaluation r 0).evaluations pts = _
          rw [partial_evaluation_zero_evals, pe0_eq_lin2,
            evalList_lin2 _ _ _ _ _ htl]
        have hTx : evalList M.evaluations
            (τ.get ⟨i, hiτ'⟩ :: τ.drop (i + 1))
            = (1 - τ.get ⟨i, hiτ'⟩) * evalList
                (M.evaluations.take (M.evaluations.length / 2))
                (τ.drop (i + 1))
              + τ.get ⟨i, hiτ'⟩ * evalList
                (M.evaluations.drop (M.evaluations.length / 2))
                (τ.drop (i + 1)) :=
          evalList_cons _ _ _ hdvd
        have hTr : evalList M.evaluations (r :: r2 :: rest2)
            = evalList (get_poly_remainder M r).evaluations (r2 :: rest2) := by
          show _ = evalList (M.partial_evaluation r 0).evaluations _
          rw [partial_evaluation_zero_evals]
          rfl
        rw [hqe, hre, hre, hTx, hTr, hre]
        ring

/-- C2: Multilinear KZG round-trip, amended to `n ≥ 2` — for every
multilinear `M` on `n ≥ 2` variables with a table of length `2^n`, every
point `r ∈ F^n`, and a trusted setup generated from any `n`-element secret
point `τ`, `open(M, r)` succeeds, its `evaluation` field equals
`M.evaluate(r)` (so the final-round mismatch panic inside `open` is
unreachable), `commit(M)` succeeds, and
`verify(commit(M), r, open(M, r))` accepts.  (On `n = 1` the last open round
underflows `variable_index - 1`, see the counterexample.) -/
theorem C2_kzg_round_trip {p : ℕ} [Fact (Nat.Prime p)] (M : Multilinear p)
    (n : ℕ) (hn : 2 ≤ n) (hnv : M.n_vars = n)
    (hlen : M.evaluations.length = 2 ^ n) (τ r : List (ZMod p))
    (hτ : τ.length = n) (hr : r.length = n) :
    ∃ (pf : MultilinearKZGProof p) (cm : ZMod p),
      MultilinearKZG.open M r (generate_powers_of_tau_in_g1 τ) = some pf ∧
        M.evaluation r = some pf.evaluation ∧
        MultilinearKZG.commitment M (generate_powers_of_tau_in_g1 τ)
          = some cm ∧
        MultilinearKZG.verify cm r pf (generate_powers_of_tau_in_g2 τ)
          = true := by
  haveI : Fact (1 < p) := ⟨(Fact.out : p.Prime).one_lt⟩
  have hp : (0 : ZMod p) ≠ 1 := zero_ne_one
  obtain ⟨proofs, hopen, hsum⟩ := openRounds_spec hp τ r 0 M
    (by intro h; rw [h] at hr; simp at hr; omega)
    (by rw [hnv, hr]) (by rw [hlen, hr]) (by rw [hr, hτ]; omega)
    (Or.inr (by rw [hr]; exact hn))
  have heval : M.evaluation r = some (evalList M.evaluations r) :=
    evaluation_eq_evalList M r (by rw [hnv, hr])
  have hs : sum_pairing_results τ r proofs
      = evalList M.evaluations τ - evalList M.evaluations r := by
    have h0 := hsum
    rw [List.drop_zero] at h0
    exact h0
  refine ⟨⟨evalList M.evaluations r, proofs⟩, evalList M.evaluations τ,
    ?_, ?_, ?_, ?_⟩
  · show (do
      let evaluation ← M.evaluation r
      let rr ← openRounds (generate_powers_of_tau_in_g1 τ) 0 M r
      if evaluation = rr.2 then some ⟨evaluation, rr.1⟩ else none :
      Option (MultilinearKZGProof p)) = _
    rw [heval, hopen]
    show (if evalList M.evaluations r = evalList M.evaluations r
      then some (⟨evalList M.evaluations r, proofs⟩ :
        MultilinearKZGProof p)
      else none) = some ⟨evalList M.evaluations r, proofs⟩
    rw [if_pos rfl]
  · rw [heval]
  · exact commitment_eq hp M τ (by rw [hτ, hlen])
  · show decide (evalList M.evaluations τ - evalList M.evaluations r
      = sum_pairing_results τ r proofs) = true
    rw [hs]
    simp

/-- Witness for C2 at a concrete 2-variable instance over `F_5`. -/
theorem C2_kzg_round_trip_witness :
    ((2 : ℕ) ≤ 2 ∧ (⟨2, [1, 2, 3, 4]⟩ : Multilinear 5).n_vars = 2
      ∧ (⟨2, [1, 2, 3, 4]⟩ : Multilinear 5).evaluations.length = 2 ^ 2
      ∧ ([(2 : ZMod 5), 3]).length = 2 ∧ ([(1 : ZMod 5), 4]).length = 2)
    ∧ ∃ (pf : MultilinearKZGProof 5) (cm : ZMod 5),
      MultilinearKZG.open (⟨2, [1, 2, 3, 4]⟩ : Multilinear 5) [1, 4]
          (generate_powers_of_tau_in_g1 [2, 3]) = some pf ∧
        (⟨2, [1, 2, 3, 4]⟩ : Multilinear 5).evaluation [1, 4]
          = some pf.evaluation ∧
        MultilinearKZG.commitment (⟨2, [1, 2, 3, 4]⟩ : Multilinear 5)
          (generate_powers_of_tau_in_g1 [2, 3]) = some cm ∧
        MultilinearKZG.verify cm [1, 4] pf
          (generate_powers_of_tau_in_g2 [2, 3]) = true := by
  have hd : (⟨2, [1, 2, 3, 4]⟩ : Multilinear 5).evaluations.length = 2 ^ 2 :=
    by decide
  haveI : Fact (Nat.Prime 5) := ⟨by norm_num⟩
  exact ⟨⟨le_rfl, rfl, hd, rfl, rfl⟩,
    C2_kzg_round_trip (⟨2, [1, 2, 3, 4]⟩ : Multilinear 5) 2 le_rfl rfl
      hd [2, 3] [1, 4] rfl rfl⟩

/-- C2 counterexample: on a well-formed one-variable instance the last open
round computes `variable_index - 1` with `variable_index = 0`, a `usize`
underflow (panic, modelled `none`), so `open` does not succeed and the
claimed universal round trip fails at `n = 1`. -/
theorem C2_counterexample :
    MultilinearKZG.open (⟨1, [1, 2]⟩ : Multilinear 5) [3]
      (generate_powers_of_tau_in_g1 [2]) = none := by decide

/-- C3: Multi-composed sumcheck completeness — for every non-empty vector of
composed multilinears, all with the same `n_vars` and tables of length
`2^n_vars` (and few enough factors that the `0..=max_degree` interpolation
nodes are distinct in the field), running
`MultiComposedSumcheckProver::prove` on the hypercube sum of the summed
products followed by `MultiComposedSumcheckVerifier::verify` returns
`Ok(true)`, the verifier's final oracle check comparing the sum of the
composed evaluations at the challenge vector against the final claim,
whatever the digest function behind the Fiat-Shamir transcript. -/
theorem C3_multi_composed_sumcheck_completeness {p : ℕ} [Fact (Nat.Prime p)]
    (hash : List ℕ → List ℕ) (polys : List (ComposedMultilinear p)) (nv : ℕ)
    (hne : polys ≠ [])
    (hwf : ∀ c ∈ polys, CMwf c nv ∧ c.max_degree + 1 ≤ p) :
    MultiComposedSumcheckVerifier.verify hash polys
      (MultiComposedSumcheckProver.prove hash polys
        (MultiComposedSumcheckProver.calculate_poly_sum polys)).1
      = some true := by
  have hhead : (polys.headD ⟨[]⟩).n_vars = nv := by
    cases hp : polys with
    | nil => exact absurd hp hne
    | cons c rest =>
      simp only [List.headD_cons]
      exact (cmwf_head (hwf c
        (by rw [hp]; exact List.mem_cons_self c rest)).1).1
  set T0 := (TState.new.commit (composed_mle_to_bytes polys)).commit
    (fieldToBytes (MultiComposedSumcheckProver.calculate_poly_sum polys))
    with hT0
  have hrounds := composed_rounds_complete hash nv polys T0 hwf
  have hlenr := proveRoundsComposed_chals_length hash nv polys T0
  have horacle := oracle_foldl (proveRoundsComposed hash nv polys T0).2.1 nv
    hlenr polys 0 (fun c hc f hf => ((hwf c hc).1.2 f hf).1)
  simp only [MultiComposedSumcheckVerifier.verify,
    MultiComposedSumcheckProver.prove,
    MultiComposedSumcheckProver.prove_internal,
    MultiComposedSumcheckVerifier.verify_internal, hhead]
  rw [← hT0]
  rw [hrounds]
  simp only [Option.map_some', horacle, zero_add]
  simp

/-- Witness for C3: two singleton composed multilinears over `F_17`, each on
two variables, with the trivial digest function. -/
theorem C3_multi_composed_sumcheck_completeness_witness :
    (([(⟨[⟨2, [0, 0, 0, 2]⟩]⟩ : ComposedMultilinear 17),
        ⟨[⟨2, [0, 3, 0, 3]⟩]⟩] : List (ComposedMultilinear 17)) ≠ []) ∧
      MultiComposedSumcheckVerifier.verify (fun _ => [])
        ([⟨[⟨2, [0, 0, 0, 2]⟩]⟩, ⟨[⟨2, [0, 3, 0, 3]⟩]⟩] :
          List (ComposedMultilinear 17))
        (MultiComposedSumcheckProver.prove (fun _ => [])
          ([⟨[⟨2, [0, 0, 0, 2]⟩]⟩, ⟨[⟨2, [0, 3, 0, 3]⟩]⟩] :
            List (ComposedMultilinear 17))
          (MultiComposedSumcheckProver.calculate_poly_sum
            ([⟨[⟨2, [0, 0, 0, 2]⟩]⟩, ⟨[⟨2, [0, 3, 0, 3]⟩]⟩] :
              List (ComposedMultilinear 17)))).1
        = some true := by
  have h1 : (([⟨[⟨2, [0, 0, 0, 2]⟩]⟩, ⟨[⟨2, [0, 3, 0, 3]⟩]⟩] :
      List (ComposedMultilinear 17)) ≠ []) := by decide
  have h2 : ∀ c ∈ ([⟨[⟨2, [0, 0, 0, 2]⟩]⟩, ⟨[⟨2, [0, 3, 0, 3]⟩]⟩] :
      List (ComposedMultilinear 17)), CMwf c 2 ∧ c.max_degree + 1 ≤ 17 := by
    simp only [CMwf, ComposedMultilinear.max_degree]
    decide
  haveI : Fact (Nat.Prime 17) := ⟨by norm_num⟩
  exact ⟨h1, C3_multi_composed_sumcheck_completeness (fun _ => [])
    ([⟨[⟨2, [0, 0, 0, 2]⟩]⟩, ⟨[⟨2, [0, 3, 0, 3]⟩]⟩] :
      List (ComposedMultilinear 17)) 2 h1 h2⟩

/-- C4: Basic sumcheck completeness — for every multilinear polynomial `P`
(table of length `2^n_vars`), if the prover sets `S` to the hypercube sum via
`poly_sum` and runs `Sumcheck::prove`, then `Sumcheck::verify` accepts the
resulting proof, whatever the digest function behind the Fiat-Shamir
transcript. -/
theorem C4_sumcheck_completeness {p : ℕ} (hash : List ℕ → List ℕ)
    (poly : Multilinear p) (hlen : poly.evaluations.length = 2 ^ poly.n_vars) :
    Sumcheck.verify hash (Sumcheck.poly_sum ⟨poly, 0⟩)
      (Sumcheck.prove hash (Sumcheck.poly_sum ⟨poly, 0⟩)).1 = some true :=
  C4_basic_sumcheck_completeness hash poly hlen

/-- Witness for C4 at the repository's own test vector
(`test_sum_check_proof`, table `[0,0,2,7,3,3,6,11]`), with a concrete digest
function. -/
theorem C4_sumcheck_completeness_witness :
    ((⟨3, [0, 0, 2, 7, 3, 3, 6, 11]⟩ : Multilinear 17).evaluations.length
        = 2 ^ (⟨3, [0, 0, 2, 7, 3, 3, 6, 11]⟩ : Multilinear 17).n_vars) ∧
    Sumcheck.verify (fun _ => [])
      (Sumcheck.poly_sum (⟨⟨3, [0, 0, 2, 7, 3, 3, 6, 11]⟩, 0⟩ : Sumcheck 17))
      (Sumcheck.prove (fun _ => [])
        (Sumcheck.poly_sum
          (⟨⟨3, [0, 0, 2, 7, 3, 3, 6, 11]⟩, 0⟩ : Sumcheck 17))).1 = some true :=
  ⟨by decide, C4_sumcheck_completeness (fun _ => []) _ (by decide)⟩

/-- C5 (amended): `partial_evaluation(p, v)` pairs the indices `(i, j)` that
differ exactly in the bit of weight `2^(n-1-v)` (bit `v` counted from the
most significant side), enumerated by taking, for each block of size
`2^(n-v)` of the evaluation table in order, the lower half of the block
paired with the upper half in order; it emits `p·evals[j] + (1-p)·evals[i]`
for each pair, the output length is half the input length and `n_vars`
decreases by one.  (The claim instead said blocks of size `2^(v+1)`, which
is the least-significant-bit convention; see the counterexample.) -/
theorem C5_partial_evaluation_rule {p : ℕ} (m : Multilinear p) (t : ZMod p)
    (v : ℕ) (hlen : m.evaluations.length = 2 ^ m.n_vars) (hv : v < m.n_vars) :
    (m.partial_evaluation t v).evaluations =
        (msbPairing m.n_vars v).map (fun ij =>
          t * m.evaluations.getD ij.2 0 +
            (1 - t) * m.evaluations.getD ij.1 0) ∧
      (∀ ij ∈ msbPairing m.n_vars v,
        ij.2 = ij.1 + 2 ^ (m.n_vars - 1 - v) ∧
          ij.1.testBit (m.n_vars - 1 - v) = false ∧
          ij.2.testBit (m.n_vars - 1 - v) = true ∧
          ∀ k, k ≠ m.n_vars - 1 - v → ij.1.testBit k = ij.2.testBit k) ∧
      (m.partial_evaluation t v).evaluations.length =
        m.evaluations.length / 2 ∧
      (m.partial_evaluation t v).n_vars = m.n_vars - 1 :=
  ⟨partial_evaluation_pairs_msb m t v hlen hv,
   fun ij h => msbPairing_mem_bits m.n_vars v hv ij h,
   by rw [partial_evaluation_pairs_msb m t v hlen hv, List.length_map,
        msbPairing_len _ _ hv, hlen],
   rfl⟩

/-- Counterexample to C5 as stated: on a 4-entry table at `v = 0` the code
pairs `(0,2)` and `(1,3)` (blocks of size `2^(n-v)` = 4), while the claim's
enumeration (blocks of size `2^(v+1)` = 2) pairs `(0,1)` and `(2,3)`; at
evaluation point 0 the code emits `[1, 2]` but the claim's rule would emit
`[1, 3]`. -/
theorem C5_counterexample :
    pick_pairs_with_random_index 4 0 = [(0, 2), (1, 3)] ∧
      claimPairing 4 0 = [(0, 1), (2, 3)] ∧
      pick_pairs_with_random_index 4 0 ≠ claimPairing 4 0 ∧
      ((⟨2, [1, 2, 3, 4]⟩ : Multilinear 5).partial_evaluation 0 0).evaluations
        = [1, 2] ∧
      (claimPairing 4 0).map (fun ij =>
        (0 : ZMod 5) * ([1, 2, 3, 4] : List (ZMod 5)).getD ij.2 0 +
          (1 - 0) * ([1, 2, 3, 4] : List (ZMod 5)).getD ij.1 0) = [1, 3] := by
  refine ⟨by decide, by decide, by decide, ?_, by decide⟩
  decide

/-- Witness for C5 (amended) at a concrete 2-variable table. -/
theorem C5_partial_evaluation_rule_witness :
    ((⟨2, [1, 2, 3, 4]⟩ : Multilinear 5).evaluations.length
        = 2 ^ (⟨2, [1, 2, 3, 4]⟩ : Multilinear 5).n_vars) ∧
      1 < (⟨2, [1, 2, 3, 4]⟩ : Multilinear 5).n_vars ∧
      (((⟨2, [1, 2, 3, 4]⟩ : Multilinear 5).partial_evaluation 3 1).evaluations =
          (msbPairing 2 1).map (fun ij =>
            3 * ([1, 2, 3, 4] : List (ZMod 5)).getD ij.2 0 +
              (1 - 3) * ([1, 2, 3, 4] : List (ZMod 5)).getD ij.1 0) ∧
        (∀ ij ∈ msbPairing 2 1,
          ij.2 = ij.1 + 2 ^ (2 - 1 - 1) ∧
            ij.1.testBit (2 - 1 - 1) = false ∧
            ij.2.testBit (2 - 1 - 1) = true ∧
            ∀ k, k ≠ 2 - 1 - 1 → ij.1.testBit k = ij.2.testBit k) ∧
        ((⟨2, [1, 2, 3, 4]⟩ : Multilinear 5).partial_evaluation 3 1).evaluations.length
          = ([1, 2, 3, 4] : List (ZMod 5)).length / 2 ∧
        ((⟨2, [1, 2, 3, 4]⟩ : Multilinear 5).partial_evaluation 3 1).n_vars
          = 2 - 1) :=
  ⟨by decide, by decide,
   C5_partial_evaluation_rule (⟨2, [1, 2, 3, 4]⟩ : Multilinear 5) 3 1
     (by decide) (by decide)⟩

/-- C6 (amended): `add_to_front(k)` returns a polynomial on `n+k+1`
variables whose table is the whole table replicated `2^(k+1)` times (the
loop appends the table twice per each of its `2^k` iterations), while
`add_to_back(k)` as claimed returns a polynomial on `n+k` variables whose
table repeats each element `2^k` times in place. -/
theorem C6_variable_lifting {p : ℕ} (m : Multilinear p) (k : ℕ)
    (hlen : m.evaluations.length = 2 ^ m.n_vars) :
    (m.add_to_front k).n_vars = m.n_vars + k + 1 ∧
      (m.add_to_front k).evaluations =
        (List.replicate (2 ^ (k + 1)) m.evaluations).flatten ∧
      (m.add_to_back k).n_vars = m.n_vars + k ∧
      (m.add_to_back k).evaluations =
        m.evaluations.flatMap (fun x => List.replicate (2 ^ k) x) :=
  ⟨(add_to_front_spec m k hlen).2, (add_to_front_spec m k hlen).1,
   (add_to_back_spec m k hlen).2, (add_to_back_spec m k hlen).1⟩

/-- Counterexample to C6 as stated: `add_to_front(0)` on a 1-variable table
`[1, 2]` yields the table `[1, 2, 1, 2]` on 2 variables — the table is
replicated `2^(0+1) = 2` times, not `2^0 = 1` time, and the variable count
is `n + 0 + 1`, not `n + 0`. -/
theorem C6_counterexample :
    ((⟨1, [1, 2]⟩ : Multilinear 5).add_to_front 0).evaluations = [1, 2, 1, 2] ∧
      ((⟨1, [1, 2]⟩ : Multilinear 5).add_to_front 0).n_vars = 2 ∧
      ¬(((⟨1, [1, 2]⟩ : Multilinear 5).add_to_front 0).evaluations = [1, 2] ∧
        ((⟨1, [1, 2]⟩ : Multilinear 5).add_to_front 0).n_vars = 1) := by
  refine ⟨?_, by decide, ?_⟩ <;> decide

/-- Witness for C6 (amended) at a concrete table. -/
theorem C6_variable_lifting_witness :
    ((⟨1, [1, 2]⟩ : Multilinear 5).evaluations.length
        = 2 ^ (⟨1, [1, 2]⟩ : Multilinear 5).n_vars) ∧
      (((⟨1, [1, 2]⟩ : Multilinear 5).add_to_front 1).n_vars = 1 + 1 + 1 ∧
        ((⟨1, [1, 2]⟩ : Multilinear 5).add_to_front 1).evaluations =
          (List.replicate (2 ^ (1 + 1)) ([1, 2] : List (ZMod 5))).flatten ∧
        ((⟨1, [1, 2]⟩ : Multilinear 5).add_to_back 1).n_vars = 1 + 1 ∧
        ((⟨1, [1, 2]⟩ : Multilinear 5).add_to_back 1).evaluations =
          ([1, 2] : List (ZMod 5)).flatMap
            (fun x => List.replicate (2 ^ 1) x)) :=
  ⟨by decide, C6_variable_lifting (⟨1, [1, 2]⟩ : Multilinear 5) 1 (by decide)⟩

/-- C10: the result of `Sumcheck::verify` depends only on the proof argument,
never on the receiver — the round checks and the final oracle query read the
polynomial and sum stored inside the proof itself. -/
theorem C10_verify_ignores_receiver {p : ℕ} (hash : List ℕ → List ℕ)
    (s1 s2 : Sumcheck p) (proof : SumcheckProof p) :
    Sumcheck.verify hash s1 proof = Sumcheck.verify hash s2 proof := rfl

/-! ## GKR helper lemmas -/

theorem squeezeNFields_length {p : ℕ} (hash : List ℕ → List ℕ) :
    ∀ (n : ℕ) (ts : TState),
      (TState.squeezeNFields p hash n ts).1.length = n := by
  intro n
  induction n with
  | zero => intro ts; rfl
  | succ n ih =>
    intro ts
    simp only [TState.squeezeNFields, List.length_cons, ih]

theorem squeezeNFields_trace {p : ℕ} (hash : List ℕ → List ℕ) :
    ∀ (n : ℕ) (ts : TState),
      (TState.squeezeNFields p hash n ts).2.trace
        = ts.trace ++ List.replicate n TEvent.squeeze := by
  intro n
  induction n with
  | zero => intro ts; simp [TState.squeezeNFields]
  | succ n ih =>
    intro ts
    simp only [TState.squeezeNFields]
    rw [ih]
    simp [TState.squeezeField, TState.challenge, List.replicate_succ]

/-- Evaluating a one-variable multilinear with both table entries equal to
`s` yields `s` at every point. -/
theorem eval_const_pair {p : ℕ} (s : ZMod p) (l : List (ZMod p))
    (hl : l.length = 1) :
    (⟨1, [s, s]⟩ : Multilinear p).evaluation l = some s := by
  obtain ⟨x, hx⟩ := List.length_eq_one.mp hl
  subst hx
  rw [evaluation_eq_evalList _ _ (by simp), evalList_pair]
  congr 1
  ring

/-- C9: `SuccintGKRProtocol::verify` is not short-circuited by a failing KZG
opening verification.  On a concrete instance both KZG opening checks return
`false`, yet `verify` returns `some true` because the defaulted (zero) input
evaluations satisfy the final equality `claimed = α·w_b + β·w_c`; changing
the proof so that the final equality fails (the openings still failing)
makes `verify` return `some false` — the final equality check is the only
remaining rejection point. -/
theorem C9_succint_verify_past_kzg_failure :
    (MultilinearKZG.verify (1 : ZMod 17) [0, 0]
        (MultilinearKZGProof.default 17)
        (TrustedSetup.setup ([2, 3] : List (ZMod 17))).powers_of_tau_in_g2
      = false)
    ∧ SuccintGKRProtocol.verify (fun _ => []) gkrCircuitOne (1 : ZMod 17)
        ⟨[⟨[⟨[]⟩, ⟨[]⟩], 0⟩], [0], [0], ⟨1, [0, 0]⟩,
          MultilinearKZGProof.default 17, MultilinearKZGProof.default 17⟩
        (TrustedSetup.setup [2, 3])
      = some true
    ∧ SuccintGKRProtocol.verify (fun _ => [1]) gkrCircuitOne (1 : ZMod 17)
        ⟨[⟨[⟨[]⟩, ⟨[]⟩], 0⟩], [1], [0], ⟨1, [0, 0]⟩,
          MultilinearKZGProof.default 17, MultilinearKZGProof.default 17⟩
        (TrustedSetup.setup [2, 3])
      = some false := by
  refine ⟨by decide, by decide, by decide⟩

/-- C7: the GKR verifier panics (modelled `none`) instead of returning
`false` when a sumcheck round polynomial fails the round-consistency check
`g(0) + g(1) = claimed`: the `verify_partial(..).unwrap()` inside
`generate_layer_one_verify_sumcheck` propagates the `Err`.  The failing
round polynomial here is the constant `1` against the claim `5`
(`g(0) + g(1) = 2 ≠ 5`), for every hash function driving the transcript. -/
theorem C7_verify_panics_on_bad_round_poly (hash : List ℕ → List ℕ) :
    ((5 : ZMod 17) ≠ (⟨[⟨1, 0⟩]⟩ : UnivariatePolynomial 17).evaluate 0
        + (⟨[⟨1, 0⟩]⟩ : UnivariatePolynomial 17).evaluate 1)
    ∧ GKRProtocol.verify hash gkrCircuitOne ([2, 3, 4, 5] : List (ZMod 17))
        ⟨[⟨[⟨[⟨1, 0⟩]⟩], 5⟩], [0], [0], ⟨1, [5, 5]⟩⟩
      = none := by
  refine ⟨by decide, ?_⟩
  have hvi : ∀ ts : TState,
      verifyInternalRounds hash
        [(⟨[⟨1, 0⟩]⟩ : UnivariatePolynomial 17)] (5 : ZMod 17) ts = none := by
    intro ts
    simp only [verifyInternalRounds]
    rw [if_neg (by decide)]
  have hvp : MultiComposedSumcheckVerifier.verify_partial hash
      (⟨[⟨[⟨1, 0⟩]⟩], 5⟩ : ComposedSumcheckProof 17) = none := by
    simp only [MultiComposedSumcheckVerifier.verify_partial,
      MultiComposedSumcheckVerifier.verify_internal, hvi]
    rfl
  have hgen : ∀ (a m : Multilinear 17) (nr1 : List (ZMod 17)) (ts : TState),
      generate_layer_one_verify_sumcheck hash a m
        (⟨[⟨[⟨1, 0⟩]⟩], 5⟩ : ComposedSumcheckProof 17) nr1 5 ts 0 0
        = none := by
    intro a m nr1 ts
    rw [generate_layer_one_verify_sumcheck]
    rw [if_neg (by decide)]
    rw [hvp]
    rfl
  have ham : (gkrCircuitOne.add_mult_mle 17 0).isSome = true := by decide
  obtain ⟨am, ham⟩ := Option.isSome_iff_exists.mp ham
  have hev : ∀ l : List (ZMod 17), l.length = 1 →
      Multilinear.evaluation ⟨1, [5, 5]⟩ l = some 5 :=
    fun l hl => eval_const_pair 5 l hl
  simp only [GKRProtocol.verify]
  rw [if_neg (by decide)]
  simp only [Option.bind_eq_bind, hev, squeezeNFields_length, ham,
    Option.some_bind, hgen, Option.none_bind]

/-- C1: `GKRProtocol::prove` panics (modelled `none`) on a well-formed
layered circuit that is outside the hardcoded canonical doubling shape:
the flat circuit evaluates fine, but `size_of_mle_n_var_at_each_layer`
forces layer 0's wiring tables to 3 variables while `W_1` has 2, so
`ComposedMultilinear::new` inside `generate_layer_one_prove_sumcheck`
asserts.  Completeness therefore fails: there is no proof to verify. -/
theorem C1_prove_panics_on_noncanonical_circuit (hash : List ℕ → List ℕ) :
    gkrCircuitFlat.evaluation (List.replicate 8 (1 : ZMod 17))
      = some [[4], [2, 2, 2, 2], [1, 1, 1, 1, 1, 1, 1, 1]]
    ∧ GKRProtocol.prove hash gkrCircuitFlat (List.replicate 8 (1 : ZMod 17))
      = none := by
  refine ⟨by decide, ?_⟩
  have ham : gkrCircuitFlat.add_mult_mle 17 0
      = some (⟨3, [0, 1, 0, 0, 0, 0, 0, 0]⟩, ⟨3, [0, 0, 0, 0, 0, 0, 0, 0]⟩)
      := by decide
  have hw0 : w_mle ([4, 0] : List (ZMod 17)) = some ⟨1, [4, 0]⟩ := by decide
  have hw1 : w_mle ([2, 2, 2, 2] : List (ZMod 17)) = some ⟨2, [2, 2, 2, 2]⟩
      := by decide
  have hev : ∀ l : List (ZMod 17), l.length = 1 →
      Multilinear.evaluation ⟨1, [4, 0]⟩ l = some (evalList [4, 0] l) :=
    fun l hl => evaluation_eq_evalList _ _ (by simpa using hl)
  have hgen : ∀ (nr1 : List (ZMod 17)) (E : ZMod 17) (ts : TState),
      nr1.length = 1 →
      generate_layer_one_prove_sumcheck hash
        (⟨3, [0, 1, 0, 0, 0, 0, 0, 0]⟩ : Multilinear 17)
        ⟨3, [0, 0, 0, 0, 0, 0, 0, 0]⟩ ⟨2, [2, 2, 2, 2]⟩ nr1 E ts = none := by
    intro nr1 E ts h1
    obtain ⟨x, hx⟩ := List.length_eq_one.mp h1
    subst hx
    simp only [generate_layer_one_prove_sumcheck]
    have hnew : ComposedMultilinear.new
        [(⟨3, [0, 1, 0, 0, 0, 0, 0, 0]⟩ :
            Multilinear 17).partial_evaluations [x]
            (List.replicate ([x] : List (ZMod 17)).length 0),
          (⟨2, [2, 2, 2, 2]⟩ : Multilinear 17).add_distinct
            ⟨2, [2, 2, 2, 2]⟩] = none := by
      rw [ComposedMultilinear.new, if_neg]
      have hna : ((⟨3, [0, 1, 0, 0, 0, 0, 0, 0]⟩ :
          Multilinear 17).partial_evaluations [x]
            ([0] : List ℕ)).n_vars = 2 := rfl
      have hnb : ((⟨2, [2, 2, 2, 2]⟩ : Multilinear 17).add_distinct
          ⟨2, [2, 2, 2, 2]⟩).n_vars = 4 := by decide
      simp [hna, hnb]
    rw [hnew]
    rfl
  simp only [GKRProtocol.prove]
  have hce : gkrCircuitFlat.evaluation (List.replicate 8 (1 : ZMod 17))
      = some [[4], [2, 2, 2, 2], [1, 1, 1, 1, 1, 1, 1, 1]] := by decide
  rw [hce]
  simp only [Option.bind_eq_bind, Option.some_bind, Option.none_bind,
    List.headD_cons, List.cons_append, List.nil_append, hw0, hw1, ham,
    List.getD_cons_succ, List.getD_cons_zero, hev, squeezeNFields_length,
    hgen]

/-- The round loop of the composed prover interleaves, on whichever
transcript it is given, one absorb of the round polynomial's bytes with one
squeeze of its challenge, round by round. -/
theorem proveRoundsComposed_trace {p : ℕ} (hash : List ℕ → List ℕ) :
    ∀ (n : ℕ) (polys : List (ComposedMultilinear p)) (ts : TState),
      (proveRoundsComposed hash n polys ts).2.2.trace
        = ts.trace ++ ((proveRoundsComposed hash n polys ts).1.map
            (fun g => [TEvent.absorb g.to_bytes, TEvent.squeeze])).flatten := by
  intro n
  induction n with
  | zero =>
    intro polys ts
    simp [proveRoundsComposed]
  | succ n ih =>
    intro polys ts
    simp only [proveRoundsComposed]
    rw [ih]
    simp [TState.commit, TState.squeezeField, TState.challenge]

/-- `prove_internal` absorbs the claimed sum and then interleaves each round
polynomial's absorb with its challenge squeeze, on the transcript it is
handed. -/
theorem prove_internal_trace {p : ℕ} (hash : List ℕ → List ℕ)
    (poly : List (ComposedMultilinear p)) (sum : ZMod p) (ts : TState) :
    (MultiComposedSumcheckProver.prove_internal hash poly sum ts).2.trace
      = ts.trace ++ [TEvent.absorb (fieldToBytes sum)]
        ++ (((MultiComposedSumcheckProver.prove_internal hash poly sum
              ts).1.1.round_polys).map
            (fun g => [TEvent.absorb g.to_bytes, TEvent.squeeze])).flatten := by
  show (proveRoundsComposed hash (poly.headD ⟨[]⟩).n_vars poly
      (ts.commit (fieldToBytes sum))).2.2.trace
    = ts.trace ++ [TEvent.absorb (fieldToBytes sum)]
      ++ ((proveRoundsComposed hash (poly.headD ⟨[]⟩).n_vars poly
            (ts.commit (fieldToBytes sum))).1.map
          (fun g => [TEvent.absorb g.to_bytes, TEvent.squeeze])).flatten
  rw [proveRoundsComposed_trace]
  simp [TState.commit]

/-- `generate_layer_one_prove_sumcheck` touches the protocol transcript
exactly three times: one absorb of the whole sumcheck proof's bytes, then
the two squeezes producing `α` and `β`. -/
theorem generate_layer_one_prove_trace {p : ℕ} (hash : List ℕ → List ℕ)
    (a m w : Multilinear p) (nr : List (ZMod p)) (sum : ZMod p)
    (ts : TState)
    (g : (ZMod p × ZMod p × ZMod p × List (ZMod p) × List (ZMod p))
      × ComposedSumcheckProof p × ZMod p × ZMod p × TState)
    (h : generate_layer_one_prove_sumcheck hash a m w nr sum ts = some g) :
    g.2.2.2.2.trace
      = ts.trace ++ [TEvent.absorb g.2.1.to_bytes, TEvent.squeeze,
          TEvent.squeeze] := by
  simp only [generate_layer_one_prove_sumcheck, Option.bind_eq_bind,
    Option.bind_eq_some, Option.some.injEq] at h
  obtain ⟨af, haf, mf, hmf, ewb, hewb, ewc, hewc, h⟩ := h
  subst h
  simp [TState.commit, TState.squeezeField, TState.challenge]

/-- The `GKRProtocol::prove` layer loop touches the protocol transcript, per
layer, with exactly one absorb (the layer's whole sumcheck proof bytes)
followed by the two `α`/`β` squeezes. -/
theorem gkrProveLayers_trace {p : ℕ} (hash : List ℕ → List ℕ)
    (circuit : GKRCircuit) (evals : List (List (ZMod p))) :
    ∀ (idxs : List ℕ) (cs al be : ZMod p) (rb rc : List (ZMod p))
      (ts : TState)
      (out : List (ComposedSumcheckProof p) × List (ZMod p) ×
        List (ZMod p) × TState),
      gkrProveLayers hash circuit evals idxs cs al be rb rc ts = some out →
      out.2.2.2.trace = ts.trace
        ++ (out.1.map (fun pf => [TEvent.absorb pf.to_bytes, TEvent.squeeze,
            TEvent.squeeze])).flatten := by
  intro idxs
  induction idxs with
  | nil =>
    intro cs al be rb rc ts out h
    simp only [gkrProveLayers, Option.some.injEq] at h
    subst h
    simp
  | cons i rest ih =>
    intro cs al be rb rc ts out h
    simp only [gkrProveLayers, Option.bind_eq_bind, Option.bind_eq_some,
      Option.some.injEq] at h
    obtain ⟨am, ham, wi, hwi, fa, hfa, fm, hfm, ewb, hewb, ewc, hewc,
      rr, hrr, h⟩ := h
    subst h
    rw [ih _ _ _ _ _ _ _ hrr]
    simp [TState.commit, TState.squeezeField, TState.challenge]

/-- C8: the actual Fiat-Shamir discipline of `GKRProtocol::prove`.
(a) Each layer's multi-composed sumcheck runs on a fresh transcript of its
own (`prove_partial` starts from `FiatShamirTranscript::new`): on that
fresh transcript the claimed sum is absorbed and then every round
polynomial is absorbed before its round challenge is squeezed.
(b) The protocol's own transcript never sees the individual round
polynomials: it absorbs the layer-0 polynomial's bytes, squeezes its
`n_vars` challenges, and then, per layer, absorbs the layer's whole
sumcheck proof once and squeezes `α` and `β` from that state — so the
round challenges are not bound to the protocol transcript, contrary to the
claim, while `(W(r_b), W(r_c))` is indeed not separately absorbed. -/
theorem C8_transcript_discipline {p : ℕ} (hash : List ℕ → List ℕ) :
    (∀ (poly : List (ComposedMultilinear p)) (sum : ZMod p),
      (MultiComposedSumcheckProver.prove_partial hash poly sum).2.trace
        = [TEvent.absorb (fieldToBytes sum)]
          ++ (((MultiComposedSumcheckProver.prove_partial hash poly
                sum).1.1.round_polys).map
              (fun g => [TEvent.absorb g.to_bytes, TEvent.squeeze])).flatten)
    ∧ ∀ (circuit : GKRCircuit) (input : List (ZMod p))
        (out : GKRProof p × TState),
        GKRProtocol.prove hash circuit input = some out →
        out.2.trace
          = [TEvent.absorb out.1.w_0_mle.to_bytes]
            ++ List.replicate out.1.w_0_mle.n_vars TEvent.squeeze
            ++ (out.1.sumcheck_proofs.map
                (fun pf => [TEvent.absorb pf.to_bytes, TEvent.squeeze,
                  TEvent.squeeze])).flatten := by
  constructor
  · intro poly sum
    have h := prove_internal_trace hash poly sum TState.new
    simpa [TState.new, MultiComposedSumcheckProver.prove_partial] using h
  · intro circuit input out h
    simp only [GKRProtocol.prove, Option.bind_eq_bind, Option.bind_eq_some,
      Option.some.injEq] at h
    obtain ⟨ce, hce, w0, hw0, claimed, hcl, am1, ham1, w1, hw1m, g1, hg1,
      rr, hrr, h⟩ := h
    subst h
    rw [gkrProveLayers_trace hash circuit ce _ _ _ _ _ _ _ _ hrr]
    rw [generate_layer_one_prove_trace hash am1.1 am1.2 _ _ _ _ _ hg1]
    rw [squeezeNFields_trace]
    simp [TState.new, TState.commit, List.append_assoc]

/-- Witness for C8 on the repository's first test circuit: the prover
succeeds and the protocol-transcript trace has the per-layer
absorb-once-then-squeeze-twice shape. -/
theorem C8_transcript_discipline_witness :
    ∃ out : GKRProof 17 × TState,
      GKRProtocol.prove (fun _ => []) gkrCircuitOne
          ([2, 3, 4, 5] : List (ZMod 17)) = some out
      ∧ out.2.trace
          = [TEvent.absorb out.1.w_0_mle.to_bytes]
            ++ List.replicate out.1.w_0_mle.n_vars TEvent.squeeze
            ++ (out.1.sumcheck_proofs.map
                (fun pf => [TEvent.absorb pf.to_bytes, TEvent.squeeze,
                  TEvent.squeeze])).flatten := by
  have hs : (GKRProtocol.prove (fun _ => []) gkrCircuitOne
      ([2, 3, 4, 5] : List (ZMod 17))).isSome = true := by decide
  obtain ⟨out, hout⟩ := Option.isSome_iff_exists.mp hs
  exact ⟨out, hout,
    (C8_transcript_discipline (fun _ => [])).2 gkrCircuitOne [2, 3, 4, 5]
      out hout⟩

/-- Counterexample to C8 as claimed: on the first test circuit the layer
sumcheck proofs carry 6 round polynomials in total, yet the protocol's
transcript records only 3 absorb events (the layer-0 polynomial and one
whole proof per layer).  Had every round polynomial been absorbed into the
protocol's transcript before its challenge was squeezed, that transcript
would contain at least 6 absorbs. -/
theorem C8_counterexample :
    (GKRProtocol.prove (fun _ => []) gkrCircuitOne
        ([2, 3, 4, 5] : List (ZMod 17))).map
      (fun out =>
        ((out.1.sumcheck_proofs.map (fun pf => pf.round_polys.length)).sum,
          out.2.trace.countP
            (fun e => match e with
              | TEvent.absorb _ => true
              | TEvent.squeeze => false)))
      = some (6, 3) := by decide

end ZK
